import Mathlib

/-!
Verification of the in-memory relational query core of libopenschichtplaner5.

The Python source is shallowly embedded: model records ("rows") become
association lists from field names to scalar values, `getattr(r, f, None)`
becomes an `Option`-valued field lookup, Python dictionaries become
insertion-ordered association lists, and functions that raise become
`Except`-valued functions.  Mutable loops are modelled by explicit state
passing.  Python `int` is modelled by `Int` (arbitrary precision in both).

Notes on deliberate totalizations (places where CPython would raise
`TypeError` on inputs never exercised by any claim):
* ordered comparison of an `Int` against a `String` is given a fixed
  arbitrary answer (`Value.cmp` orders all ints before all strings);
  CPython 3 raises instead.  No claim compares values of different types.
* `x in y` for a non-list, non-string `y` is modelled as `false`.
`str.lower()` is modelled with `Char.toLower`, which agrees with CPython
on the ASCII strings appearing in the claims.
-/

namespace SP5

/-- A scalar field value (already decoded by the external row source). -/
inductive Value where
  | int (n : Int)
  | str (s : String)
  deriving Repr, DecidableEq

/-- Python `str(x)` on a scalar. -/
def Value.toStr : Value → String
  | .int n => toString n
  | .str s => s

/-- Ordering used by ordered filter comparisons; on same-type operands it
agrees with Python (`Int` order, lexicographic string order); cross-type
comparison is totalized (see the file header). -/
def Value.cmp : Value → Value → Ordering
  | .int a, .int b => compare a b
  | .str a, .str b => compare a b
  | .int _, .str _ => .lt
  | .str _, .int _ => .gt

/-- A model record: an association list from attribute names to values.
`getattr(record, f, None)` is `Row.get`. -/
structure Row where
  fields : List (String × Value)
  deriving Repr, DecidableEq

/-- `getattr(record, f, None)`: `none` models Python `None` / an absent
attribute. -/
def Row.get (r : Row) (f : String) : Option Value :=
  match r.fields.find? (fun p => p.1 == f) with
  | some p => some p.2
  | none => none

/-- Python `a.lower()` (ASCII-faithful; written on the character list so
that it evaluates inside the kernel). -/
def pyLower (s : String) : String := ⟨s.data.map Char.toLower⟩

/-- Decidable infix test on lists. -/
def listInfix : List Char → List Char → Bool
  | needle, [] => needle.isEmpty
  | needle, h :: t => needle.isPrefixOf (h :: t) || listInfix needle t

/-- Python `needle in haystack` on strings (substring containment). -/
def pySubstr (needle haystack : String) : Bool :=
  listInfix needle.toList haystack.toList

/-! ## query_engine.FilterOperator and query_engine.Filter -/

inductive FilterOperator where
  | EQUALS | NOT_EQUALS | GREATER_THAN | LESS_THAN
  | GREATER_EQUALS | LESS_EQUALS
  | IN | NOT_IN | CONTAINS | STARTS_WITH | ENDS_WITH
  | IS_NULL | IS_NOT_NULL
  deriving Repr, DecidableEq

/-- A filter's comparison value (`Filter.value: Any` in the source): either a
scalar or a list (the latter used with IN / NOT_IN). -/
inductive FVal where
  | v (x : Value)
  | list (xs : List Value)
  deriving Repr, DecidableEq

/-- Python `str(value)` for a filter value.  For lists the rendering is
irrelevant to every claim; a simple placeholder rendering is used. -/
def FVal.toStr : FVal → String
  | .v x => x.toStr
  | .list _ => "[...]"

/-- Python `field_value in self.value` (membership for list values,
substring test when the right operand is a string). -/
def FVal.memVal (x : Value) : FVal → Bool
  | .list xs => xs.contains x
  | .v (.str s) =>
      match x with
      | .str xs => pySubstr xs s
      | .int _ => false
  | .v (.int _) => false

structure Filter where
  field : String
  operator : FilterOperator
  value : FVal
  deriving Repr, DecidableEq

/-- `Filter.apply` from query_engine.py, line for line: IS_NULL /
IS_NOT_NULL test `None`-ness first, any other operator on an absent field
returns False, then the operator dispatch. -/
def Filter.apply (f : Filter) (record : Row) : Bool :=
  let fieldValue := record.get f.field
  match f.operator, fieldValue with
  | .IS_NULL, fv => fv.isNone
  | .IS_NOT_NULL, fv => fv.isSome
  | _, none => false
  | op, some fv =>
    match op, f.value with
    | .EQUALS, .v v => fv == v
    | .EQUALS, .list _ => false
    | .NOT_EQUALS, .v v => fv != v
    | .NOT_EQUALS, .list _ => true
    | .GREATER_THAN, .v v => fv.cmp v == .gt
    | .LESS_THAN, .v v => fv.cmp v == .lt
    | .GREATER_EQUALS, .v v => fv.cmp v != .lt
    | .LESS_EQUALS, .v v => fv.cmp v != .gt
    | .IN, w => FVal.memVal fv w
    | .NOT_IN, w => !(FVal.memVal fv w)
    | .CONTAINS, w => pySubstr (pyLower w.toStr) (pyLower fv.toStr)
    | .STARTS_WITH, w => (pyLower fv.toStr).startsWith (pyLower w.toStr)
    | .ENDS_WITH, w => (pyLower fv.toStr).endsWith (pyLower w.toStr)
    | _, _ => false

/-! ## relationships.RelationType / TableRelationship / RelationshipManager -/

inductive RelationType where
  | oneToOne | oneToMany | manyToOne | manyToMany
  deriving Repr, DecidableEq

/-- relationships.TableRelationship.  The `source_attribute` /
`target_attribute` DBF-name fields are carried for faithfulness although
no resolution logic reads them. -/
structure TableRelationship where
  source_table : String
  source_field : String
  target_table : String
  target_field : String
  relationship_type : RelationType
  description : String := ""
  source_attribute : Option String := none
  target_attribute : Option String := none
  deriving Repr, DecidableEq

/-- Short constructor mirroring `RelationshipManager.add_relationship`. -/
def mkRel (st sf tt tf : String) (ty : RelationType) (d : String)
    (sa ta : String) : TableRelationship :=
  ⟨st, sf, tt, tf, ty, d, some sa, some ta⟩

/-- The relationship list built by
`RelationshipManager._define_relationships`, in registration order (the
Python `set` iteration order is unspecified; the embedding fixes insertion
order, on which no claim depends). -/
def definedRelationships : List TableRelationship := [
  mkRel "5EMPL" "id" "5ABSEN" "employee_id" .oneToMany "Employee has many absences" "ID" "EMPLOYEEID",
  mkRel "5EMPL" "id" "5SPSHI" "employee_id" .oneToMany "Employee has many shift details" "ID" "EMPLOYEEID",
  mkRel "5EMPL" "id" "5MASHI" "employee_id" .oneToMany "Employee has many shifts" "ID" "EMPLOYEEID",
  mkRel "5EMPL" "id" "5CYASS" "employee_id" .oneToMany "Employee has many cycle assignments" "ID" "EMPLOYEEID",
  mkRel "5EMPL" "id" "5GRASG" "employee_id" .oneToMany "Employee belongs to many groups" "ID" "EMPLOYEEID",
  mkRel "5EMPL" "id" "5LEAEN" "employee_id" .oneToMany "Employee has many leave entitlements" "ID" "EMPLOYEEID",
  mkRel "5EMPL" "id" "5BOOK" "employee_id" .oneToMany "Employee has many bookings" "ID" "EMPLOYEEID",
  mkRel "5EMPL" "id" "5RESTR" "employee_id" .oneToMany "Employee has many shift restrictions" "ID" "EMPLOYEEID",
  mkRel "5EMPL" "id" "5EMACC" "employee_id" .oneToMany "Employee has access rights" "ID" "EMPLOYEEID",
  mkRel "5GROUP" "id" "5GRASG" "group_id" .oneToMany "Group has many employee assignments" "ID" "GROUPID",
  mkRel "5GROUP" "id" "5GRACC" "group_id" .oneToMany "Group has many access definitions" "ID" "GROUPID",
  mkRel "5GROUP" "id" "5PERIO" "group_id" .oneToMany "Group has many periods" "ID" "GROUPID",
  mkRel "5GROUP" "id" "5DADEM" "group_id" .oneToMany "Group has daily demands" "ID" "GROUPID",
  mkRel "5GROUP" "id" "5SHDEM" "group_id" .oneToMany "Group has shift schedules" "ID" "GROUPID",
  mkRel "5SHIFT" "id" "5SPSHI" "shift_id" .oneToMany "Shift appears in many shift details" "ID" "SHIFTID",
  mkRel "5SHIFT" "id" "5NOTE" "shift_id" .oneToMany "Shift can have notes" "ID" "SHIFTID",
  mkRel "5SHIFT" "id" "5CYENT" "shift_id" .oneToMany "Shift used in cycle entitlements" "ID" "SHIFTID",
  mkRel "5SHIFT" "id" "5RESTR" "shift_id" .oneToMany "Shift can have restrictions" "ID" "SHIFTID",
  mkRel "5SHIFT" "id" "5SHDEM" "shift_id" .oneToMany "Shift appears in schedules" "ID" "SHIFTID",
  mkRel "5SHIFT" "id" "5MASHI" "shift_id" .oneToMany "Shift assigned to employees" "ID" "SHIFTID",
  mkRel "5LEAVT" "id" "5LEAEN" "leave_type_id" .oneToMany "Leave type used in entitlements" "ID" "LEAVETYPID",
  mkRel "5LEAVT" "id" "5ABSEN" "leave_type_id" .oneToMany "Leave type used in absences" "ID" "LEAVETYPID",
  mkRel "5CYCLE" "id" "5CYASS" "cycle_id" .oneToMany "Cycle has many assignments" "ID" "CYCLEID",
  mkRel "5CYCLE" "id" "5CYENT" "cycle_id" .oneToMany "Cycle has entitlements" "ID" "CYCLEID",
  mkRel "5WOPL" "id" "5SPSHI" "workplace_id" .oneToMany "Work location used in shift details" "ID" "WORKPLACID",
  mkRel "5WOPL" "id" "5MASHI" "workplace_id" .oneToMany "Work location used in employee shifts" "ID" "WORKPLACID",
  mkRel "5WOPL" "id" "5CYENT" "workplace_id" .oneToMany "Work location in cycle entitlements" "ID" "WORKPLACID",
  mkRel "5WOPL" "id" "5SHDEM" "workplace_id" .oneToMany "Work location in shift schedules" "ID" "WORKPLACID",
  mkRel "5USER" "id" "5EMACC" "user_id" .oneToMany "User has employee access rights" "ID" "USERID",
  mkRel "5USER" "id" "5GRACC" "user_id" .oneToMany "User has group access rights" "ID" "USERID",
  mkRel "5HOLID" "id" "5HOBAN" "holiday_id" .oneToMany "Holiday has assignments" "ID" "HOLIDAY_ID",
  mkRel "5CYASS" "id" "5CYEXC" "cycle_ass_id" .oneToMany "Cycle assignment has exceptions" "ID" "CYCLEASSID",
  mkRel "5MASHI" "shift_id" "5SHIFT" "id" .manyToOne "Employee shift references shift definition" "SHIFTID" "ID",
  mkRel "5MASHI" "workplace_id" "5WOPL" "id" .manyToOne "Employee shift at workplace" "WORKPLACID" "ID",
  mkRel "5MASHI" "employee_id" "5EMPL" "id" .manyToOne "Employee shift belongs to employee" "EMPLOYEEID" "ID"]

/-- `RelationshipManager.get_relationships_from` (the `_index[table]`
bucket, in relationship order). -/
def getRelationshipsFrom (rels : List TableRelationship) (table : String) :
    List TableRelationship :=
  rels.filter (fun r => r.source_table == table)

/-- `RelationshipManager.get_relationships_to` (the
`_index["_reverse_" + table]` bucket). -/
def getRelationshipsTo (rels : List TableRelationship) (table : String) :
    List TableRelationship :=
  rels.filter (fun r => r.target_table == table)

/-- The first forward relationship found by the loop
`for rel in get_relationships_from(source): if rel.target_table == target`. -/
def findForwardRel (rels : List TableRelationship) (src tgt : String) :
    Option TableRelationship :=
  (getRelationshipsFrom rels src).find? (fun r => r.target_table == tgt)

/-- The first reverse candidate found by the loop
`for rel in get_relationships_to(source): if rel.source_table == target`. -/
def findReverseRel (rels : List TableRelationship) (src tgt : String) :
    Option TableRelationship :=
  (getRelationshipsTo rels src).find? (fun r => r.source_table == tgt)

/-- The schema synthesized by `resolve_reference` in its reverse branch:
`TableRelationship(target_table, rel.target_field, source_table,
rel.source_field, rel.relationship_type, rel.description,
rel.target_attribute, rel.source_attribute)`. -/
def synthesizeReverse (sourceTable targetTable : String)
    (rel : TableRelationship) : TableRelationship :=
  { source_table := targetTable
    source_field := rel.target_field
    target_table := sourceTable
    target_field := rel.source_field
    relationship_type := rel.relationship_type
    description := rel.description
    source_attribute := rel.target_attribute
    target_attribute := rel.source_attribute }

/-- Modelled from the spec (for comparison with `synthesizeReverse` only):
"synthesizes the mirrored schema by swapping source/target fields and
inverting cardinality (ONE_TO_MANY↔MANY_TO_ONE; ONE_TO_ONE and
MANY_TO_MANY map to themselves)" — the mirror of a B→A schema is an A→B
schema whose source field (on A) is the B→A target field and whose target
field (on B) is the B→A source field. -/
def mirrorSchemaSpec (sourceTable targetTable : String)
    (rel : TableRelationship) : TableRelationship :=
  { source_table := sourceTable
    source_field := rel.target_field
    target_table := targetTable
    target_field := rel.source_field
    relationship_type :=
      match rel.relationship_type with
      | .oneToMany => .manyToOne
      | .manyToOne => .oneToMany
      | t => t
    description := rel.description
    source_attribute := rel.target_attribute
    target_attribute := rel.source_attribute }

/-- A value of the target index built inside `resolve_reference`: for
ONE_TO_MANY / MANY_TO_MANY the dict holds insertion-ordered lists,
otherwise single records (last insertion wins). -/
inductive TIdxVal where
  | single (r : Row)
  | many (rs : List Row)
  deriving Repr, DecidableEq

/-- Insertion-ordered dict lookup. -/
def assocGet {κ α : Type} [BEq κ] (m : List (κ × α)) (k : κ) : Option α :=
  match m.find? (fun p => p.1 == k) with
  | some p => some p.2
  | none => none

/-- Insertion-ordered dict update: overwrite in place, else append. -/
def assocSet {κ α : Type} [BEq κ] (m : List (κ × α)) (k : κ) (v : α) :
    List (κ × α) :=
  match m with
  | [] => [(k, v)]
  | (k', v') :: t =>
      if k' == k then (k', v) :: t else (k', v') :: assocSet t k v

/-- One step of the index-building loop of `resolve_reference`, for one
target record. -/
def indexInsert (rel : TableRelationship) (idx : List (Value × TIdxVal))
    (record : Row) : List (Value × TIdxVal) :=
  match record.get rel.target_field with
  | none => idx
  | some keyValue =>
      if rel.relationship_type == .oneToMany
          || rel.relationship_type == .manyToMany then
        match assocGet idx keyValue with
        | some (.many rs) => assocSet idx keyValue (.many (rs ++ [record]))
        | some (.single _) => assocSet idx keyValue (.many [record])
        | none => assocSet idx keyValue (.many [record])
      else
        assocSet idx keyValue (.single record)

/-- The target index of `resolve_reference` (`target_index`). -/
def buildTargetIndex (rel : TableRelationship) (targetData : List Row) :
    List (Value × TIdxVal) :=
  targetData.foldl (indexInsert rel) []

/-- The matching loop of `resolve_reference`: for each source record with
a non-None source-field value present in the index, emit the pair(s). -/
def matchPairs (rel : TableRelationship) (sourceData targetData : List Row) :
    List (Row × Row) :=
  sourceData.foldl
    (fun acc s =>
      match s.get rel.source_field with
      | none => acc
      | some v =>
          match assocGet (buildTargetIndex rel targetData) v with
          | none => acc
          | some (.many rs) => acc ++ rs.map (fun t => (s, t))
          | some (.single t) => acc ++ [(s, t)])
    []

/-- `RelationshipManager.resolve_reference`: forward schema if any, else
the synthesized reverse schema with the two data lists swapped, else
`ValueError`. -/
def resolveReference (rels : List TableRelationship)
    (sourceData : List Row) (sourceTable targetTable : String)
    (targetData : List Row) : Except String (List (Row × Row)) :=
  match findForwardRel rels sourceTable targetTable with
  | some rel => .ok (matchPairs rel sourceData targetData)
  | none =>
      match findReverseRel rels sourceTable targetTable with
      | some rel =>
          .ok (matchPairs (synthesizeReverse sourceTable targetTable rel)
                targetData sourceData)
      | none =>
          .error ("No relationship found between " ++ sourceTable
            ++ " and " ++ targetTable)

/-! ## Loaded tables -/

/-- The `loaded_tables: Dict[str, List[Any]]` mapping, insertion-ordered. -/
abbrev Tables := List (String × List Row)

def lookupTable (tables : Tables) (name : String) : Option (List Row) :=
  match List.find? (fun p => p.1 == name) tables with
  | some p => some p.2
  | none => none

/-! ## relationships.get_entity_with_relations

The enriched dictionaries `{"_entity": e, "_table": t, "_relations": {...}}`
are modelled by an explicit tagged tree.  A relation value is either a
single match (`matches[0]`, for ONE_TO_ONE / MANY_TO_ONE) or the full
match list; each match is either a raw row (at the depth boundary) or a
recursively enriched node. -/

mutual
inductive Enriched where
  | mk (entity : Row) (table : String) (relations : RelMap)
inductive RelMap where
  | nil
  | cons (key : String) (val : RelVal) (rest : RelMap)
inductive RelVal where
  | single (m : EMatch)
  | many (ms : List EMatch)
inductive EMatch where
  | raw (r : Row)
  | enr (e : Enriched)
end

def Enriched.entity : Enriched → Row
  | .mk e _ _ => e

def Enriched.table : Enriched → String
  | .mk _ t _ => t

def Enriched.relations : Enriched → RelMap
  | .mk _ _ m => m

/-- The keys of a relation map, in insertion order. -/
def RelMap.keys : RelMap → List String
  | .nil => []
  | .cons k _ rest => k :: rest.keys

/-- The body of the `for rel in get_relationships_from(entity_table):`
loop of `get_entity_with_relations`, for one relationship: skip unloaded
targets and absent source fields, collect the matching target rows
(transformed by `sub`: recursive enrichment or the raw record), and on a
nonempty match list record `matches[0]` for ONE_TO_ONE / MANY_TO_ONE and
the whole list otherwise. -/
def relStep (tables : Tables) (entity : Row) (sub : Row → String → EMatch)
    (rel : TableRelationship) (acc : RelMap) : RelMap :=
  match lookupTable tables rel.target_table with
  | none => acc
  | some targetRows =>
      match entity.get rel.source_field with
      | none => acc
      | some v =>
          let matchedRows := targetRows.filter
            (fun tr => tr.get rel.target_field == some v)
          let ms : List EMatch := matchedRows.map
            (fun tr => sub tr rel.target_table)
          match ms with
          | [] => acc
          | m :: _ =>
              RelMap.cons rel.target_table
                (if rel.relationship_type == .oneToOne
                    || rel.relationship_type == .manyToOne then
                  RelVal.single m
                 else
                  RelVal.many ms) acc

/-- `get_entity_with_relations(entity, entity_table, loaded_tables,
max_depth)`: depth ≤ 0 yields empty relations; otherwise run `relStep`
over the relationships from the entity's table; matched rows are
recursively enriched when `max_depth > 1` (i.e. `0 < d` for
`max_depth = d + 1`, recursing at depth `max_depth - 1 = d`), and raw at
the depth boundary. -/
def getEntityWithRelations (rels : List TableRelationship) (tables : Tables) :
    Nat → Row → String → Enriched
  | 0, entity, entityTable => .mk entity entityTable .nil
  | d + 1, entity, entityTable =>
      .mk entity entityTable
        ((getRelationshipsFrom rels entityTable).foldr
          (relStep tables entity (fun tr tt =>
            if 0 < d then
              .enr (getEntityWithRelations rels tables d tr tt)
            else
              .raw tr))
          RelMap.nil)

mutual
/-- `true` iff along every root-to-descendant path of enriched nodes no
table name repeats (`seen` carries the tables of the enclosing nodes):
the "a table is never re-enriched within the same recursion branch"
property.  Raw rows are leaves. -/
def branchOk (seen : List String) : Enriched → Bool
  | .mk _ t rm => !(seen.contains t) && branchOkMap (t :: seen) rm
def branchOkMap (seen : List String) : RelMap → Bool
  | .nil => true
  | .cons _ v rest => branchOkVal seen v && branchOkMap seen rest
def branchOkVal (seen : List String) : RelVal → Bool
  | .single m => branchOkMatch seen m
  | .many ms => branchOkList seen ms
def branchOkList (seen : List String) : List EMatch → Bool
  | [] => true
  | m :: ms => branchOkMatch seen m && branchOkList seen ms
def branchOkMatch (seen : List String) : EMatch → Bool
  | .raw _ => true
  | .enr e => branchOk seen e
end

mutual
/-- `true` iff no enriched node of the tree has its own table among its
relation-map keys (the "no self-loops in enrichment" property). -/
def noSelfKey : Enriched → Bool
  | .mk _ t rm => !(rm.keys.contains t) && noSelfKeyMap rm
def noSelfKeyMap : RelMap → Bool
  | .nil => true
  | .cons _ v rest => noSelfKeyVal v && noSelfKeyMap rest
def noSelfKeyVal : RelVal → Bool
  | .single m => noSelfKeyMatch m
  | .many ms => noSelfKeyList ms
def noSelfKeyList : List EMatch → Bool
  | [] => true
  | m :: ms => noSelfKeyMatch m && noSelfKeyList ms
def noSelfKeyMatch : EMatch → Bool
  | .raw _ => true
  | .enr e => noSelfKey e
end

/-! ## query_engine.Query -/

/-- An enriched record produced by `Query._enrich_with_joins`:
`{"_entity": record, "_table": table, "_relations": {join_table:
[match[1], ...]}}`. -/
structure JoinedRow where
  entity : Row
  table : String
  relations : List (String × List Row)
  deriving Repr, DecidableEq

/-- A result record: a bare model record, a join-enriched dict, or a
recursively enriched dict. -/
inductive RRow where
  | plain (r : Row)
  | joined (j : JoinedRow)
  | enriched (e : Enriched)

/-- `Query._enrich_with_joins`: resolve every joined table for one record;
relations are recorded only when matches exist, holding the second pair
components.  An unloaded join table would be a Python `KeyError`. -/
def enrichWithJoins (rels : List TableRelationship) (tables : Tables)
    (joins : List String) (record : Row) (table : String) :
    Except String JoinedRow :=
  joins.foldlM
    (fun (jr : JoinedRow) jt =>
      match lookupTable tables jt with
      | none => .error ("KeyError: " ++ jt)
      | some jrows =>
          (resolveReference rels [record] table jt jrows).map
            (fun pairs =>
              if pairs.isEmpty then jr
              else { jr with
                      relations := jr.relations
                        ++ [(jt, pairs.map (fun m => m.2))] }))
    ⟨record, table, []⟩

/-- `Query._get_sort_value`: unwrap `_entity` for dict records. -/
def sortValue (field : String) : RRow → Option Value
  | .plain r => r.get field
  | .joined j => j.entity.get field
  | .enriched e => e.entity.get field

/-- Comparison of sort keys.  `none` (absent field) is totalized below
every value; CPython would raise `TypeError` comparing `None` with a
value, a case no claim exercises. -/
def keyCmp : Option Value → Option Value → Ordering
  | none, none => .eq
  | none, some _ => .lt
  | some _, none => .gt
  | some a, some b => a.cmp b

/-- Stable insertion step: `x` is placed before the first element it does
not compare after, preserving the original order of `le`-equal elements. -/
def stableInsert {α : Type} (le : α → α → Bool) (x : α) :
    List α → List α
  | [] => [x]
  | y :: t => if le x y then x :: y :: t else y :: stableInsert le x t

/-- Stable sort (the unique stable sort for a total preorder, hence the
semantics of Python's stable `list.sort`). -/
def stableSort {α : Type} (le : α → α → Bool) : List α → List α
  | [] => []
  | x :: t => stableInsert le x (stableSort le t)

/-- `results.sort(key=..., reverse=not ascending)`. -/
def pySortRows (results : List RRow) (field : String) (ascending : Bool) :
    List RRow :=
  stableSort
    (fun a b =>
      if ascending then
        keyCmp (sortValue field a) (sortValue field b) != .gt
      else
        keyCmp (sortValue field b) (sortValue field a) != .gt)
    results

/-- Python `l[i:]` (negative start counts from the end). -/
def pySliceFrom {α : Type} (l : List α) (i : Int) : List α :=
  if 0 ≤ i then l.drop i.toNat else l.drop ((l.length : Int) + i).toNat

/-- Python `l[:n]` (negative stop counts from the end). -/
def pySliceTake {α : Type} (l : List α) (n : Int) : List α :=
  if 0 ≤ n then l.take n.toNat else l.take ((l.length : Int) + n).toNat

/-- `query_engine.QueryResult` (`execution_time`, a wall-clock float, is
not modelled; no claim mentions it). -/
structure QueryResult where
  records : List RRow
  count : Nat

/-- The builder state of `query_engine.Query`. -/
structure Query where
  fromTable : Option String := none
  filters : List Filter := []
  joins : List String := []
  selectFields : Option (List String) := none
  orderByField : Option (String × Bool) := none
  limit : Option Int := none
  offset : Int := 0
  enrichDepth : Nat := 0

/-- `Query._normalize_table_name`. -/
def normalizeTableName (tables : Tables) (table : String) : String :=
  if table == "5MASHI" then
    if (lookupTable tables "5MASHI").isNone
        && (lookupTable tables "5SPSHI").isSome then "5SPSHI"
    else table
  else table

/-- `Query.select` (raises `ValueError` when the normalized table is not
loaded). -/
def Query.select (tables : Tables) (q : Query) (table : String)
    (fields : Option (List String) := none) : Except String Query :=
  let t := normalizeTableName tables table
  if (lookupTable tables t).isNone then
    .error ("Table " ++ t ++ " not loaded")
  else
    .ok { q with fromTable := some t, selectFields := fields }

/-- `Query.join`. -/
def Query.join (tables : Tables) (q : Query) (table : String) :
    Except String Query :=
  let t := normalizeTableName tables table
  if (lookupTable tables t).isNone then
    .error ("Table " ++ t ++ " not loaded")
  else
    .ok { q with joins := q.joins ++ [t] }

/-- `Query.where`. -/
def Query.whereCond (q : Query) (f : Filter) : Query :=
  { q with filters := q.filters ++ [f] }

/-- `Query.with_relations`. -/
def Query.withRelations (q : Query) (depth : Nat := 1) : Query :=
  { q with enrichDepth := depth }

/-- `Query.order_by`. -/
def Query.orderBy (q : Query) (field : String) (ascending : Bool := true) :
    Query :=
  { q with orderByField := some (field, ascending) }

/-- `Query.limit`. -/
def Query.limitTo (q : Query) (l : Int) : Query := { q with limit := some l }

/-- `Query.offset`. -/
def Query.offsetBy (q : Query) (o : Int) : Query := { q with offset := o }

/-- Steps (1)–(4) of `Query.execute`: scan, filter, join or enrich, sort.
Exactly the statements of the source before `# Apply offset and limit`. -/
def executePipeline (rels : List TableRelationship) (tables : Tables)
    (q : Query) : Except String (List RRow) :=
  match q.fromTable with
  | none => .error "No table selected"
  | some ft =>
      match lookupTable tables ft with
      | none => .error ("KeyError: " ++ ft)
      | some rows =>
          let filtered := q.filters.foldl
            (fun rs f => rs.filter (fun r => f.apply r)) rows
          let built : Except String (List RRow) :=
            if !q.joins.isEmpty then
              filtered.mapM (fun r =>
                (enrichWithJoins rels tables q.joins r ft).map RRow.joined)
            else if 0 < q.enrichDepth then
              .ok (filtered.map (fun r =>
                RRow.enriched
                  (getEntityWithRelations rels tables q.enrichDepth r ft)))
            else
              .ok (filtered.map RRow.plain)
          built.map (fun results =>
            match q.orderByField with
            | some (f, asc) => pySortRows results f asc
            | none => results)

/-- `Query.execute`: the pipeline, then `if self._offset:` slicing and
`if self._limit:` truncation (both guards are Python truthiness tests, so
offset 0, limit `None` and limit 0 all skip their step). -/
def Query.execute (rels : List TableRelationship) (tables : Tables)
    (q : Query) : Except String QueryResult :=
  (executePipeline rels tables q).map (fun sorted =>
    let afterOffset := if q.offset != 0 then pySliceFrom sorted q.offset
                       else sorted
    let final :=
      match q.limit with
      | none => afterOffset
      | some l => if l != 0 then pySliceTake afterOffset l else afterOffset
    ⟨final, final.length⟩)

/-! ## registry_improved.PluginRegistry -/

/-- A registered table plugin (name, dependency set, optional flag);
`plugin.dependencies` is a Python `set`, modelled as a duplicate-free
list (theorems carry the `Nodup` hypothesis). -/
structure Plugin where
  name : String
  deps : List String
  optional : Bool := false
  deriving Repr, DecidableEq

/-- `self.plugins.keys()` in registration order. -/
def registeredNames (ps : List Plugin) : List String := ps.map (fun p => p.name)

/-- `graph[t]` — the dependency set of a registered table (empty for
unknown names). -/
def depsOf (ps : List Plugin) (t : String) : List String :=
  match ps.find? (fun p => p.name == t) with
  | some p => p.deps
  | none => []

/-- The live value of `in_degree[o]`: the initialization counts the
registered dependencies of `o`; the loop decrements once for each popped
table `t` with `t ∈ graph[o]`.  Since every popped table is appended to
`result` and the top-level call starts from `result = []`, the counter is
recomputed here from the pop history. -/
def indegI (ps : List Plugin) (result : List String) (o : String) : Int :=
  (((depsOf ps o).filter (fun d => (registeredNames ps).contains d)).length : Int)
  - ((result.filter (fun x => (depsOf ps o).contains x)).length : Int)

/-- The `while queue:` loop of `PluginRegistry._resolve_dependencies`:
pop the queue head into `result`, then append every table whose in-degree
this pop drove to zero.  `fuel` only bounds the iteration count; the
caller supplies enough for the loop to empty its queue. -/
def kahnLoop (ps : List Plugin) : Nat → List String → List String →
    List String
  | 0, _, result => result
  | _ + 1, [], result => result
  | fuel + 1, t :: queue, result =>
      let popped := result ++ [t]
      let newly := (registeredNames ps).filter
        (fun o => (depsOf ps o).contains t && indegI ps popped o == 0)
      kahnLoop ps fuel (queue ++ newly) popped

/-- `PluginRegistry._resolve_dependencies`: Kahn's algorithm; on an early
queue exhaustion the `ValueError` names every still-unprocessed table
(`remaining`). -/
def resolveDependencies (ps : List Plugin) :
    Except (List String) (List String) :=
  let all := registeredNames ps
  let queue0 := all.filter (fun t => indegI ps [] t == 0)
  let result := kahnLoop ps (ps.length + 1) queue0 []
  if result.length != all.length then
    .error (all.filter (fun t => !result.contains t))
  else
    .ok result

/-- Every registered dependency of every listed table appears strictly
earlier in the list; `seen` accumulates the tables already passed. -/
def DepsRespect (ps : List Plugin) : List String → List String → Prop
  | _, [] => True
  | seen, o :: rest =>
      (∀ d ∈ depsOf ps o, d ∈ registeredNames ps → d ∈ seen)
      ∧ DepsRespect ps (seen ++ [o]) rest

/-- A dependency cycle among registered tables: a nonempty list of
registered names in which entry `i` has entry `(i+1) mod length` among
its dependencies. -/
def IsDepCycle (ps : List Plugin) (c : List String) : Prop :=
  c ≠ [] ∧ (∀ x ∈ c, x ∈ registeredNames ps)
  ∧ ∀ i, i < c.length →
      c.getD ((i + 1) % c.length) "" ∈ depsOf ps (c.getD i "")

instance (ps : List Plugin) (c : List String) :
    Decidable (IsDepCycle ps c) := by
  unfold IsDepCycle
  exact inferInstance

/-- The registered dependency graph has no cycle. -/
def AcyclicDeps (ps : List Plugin) : Prop := ¬ ∃ c, IsDepCycle ps c

/-- The invariant of the `while queue:` loop of `_resolve_dependencies`:
the processed list and the queue are duplicate-free disjoint sublists of
the registered names, every queued table already has all its registered
dependencies processed, the processed list respects dependency order, and
every registered table whose registered dependencies are all processed
has been processed or queued. -/
def KInv (ps : List Plugin) (queue result : List String) : Prop :=
  result.Nodup ∧ queue.Nodup
  ∧ (∀ x ∈ result, x ∉ queue)
  ∧ result ⊆ registeredNames ps
  ∧ queue ⊆ registeredNames ps
  ∧ (∀ o ∈ queue, ∀ d ∈ depsOf ps o, d ∈ registeredNames ps → d ∈ result)
  ∧ DepsRespect ps [] result
  ∧ (∀ o ∈ registeredNames ps,
      (∀ d ∈ depsOf ps o, d ∈ registeredNames ps → d ∈ result) →
      o ∈ result ∨ o ∈ queue)

/-! ## Loading (registry.load_table / PluginRegistry.load_all_tables) -/

/-- The state of a table's backing source, abstracting the row-source
collaborator (file present and decodable, present but failing to load, or
absent under every tried extension). -/
inductive FileState where
  | missing
  | failing
  | rows (rs : List Row)

/-- The `(name, optional)` projection of `registry.TABLE_METADATA`, in
declaration order. -/
def registryTables : List (String × Bool) := [
  ("5ABSEN", false), ("5BOOK", false), ("5BUILD", true), ("5CYASS", false),
  ("5CYCLE", false), ("5CYENT", false), ("5CYEXC", true), ("5DADEM", true),
  ("5EMACC", true), ("5EMPL", false), ("5GRACC", true), ("5GRASG", false),
  ("5GROUP", false), ("5HOBAN", true), ("5HOLID", true), ("5LEAEN", false),
  ("5LEAVT", false), ("5MASHI", false), ("5NOTE", false), ("5OVER", true),
  ("5PERIO", true), ("5RESTR", true), ("5SHDEM", true), ("5SHIFT", false),
  ("5SPDEM", true), ("5SPSHI", false), ("5USER", true), ("5USETT", true),
  ("5WOPL", false), ("5XCHAR", true)]

/-- `registry.load_table`: unknown name → `ValueError`; missing file →
empty rows for an optional table (notice recorded) or `FileNotFoundError`;
loader failure → empty rows for an optional table (warning recorded) or
`RuntimeError`; otherwise the loaded records.  The second component
collects the recovery messages the source logs. -/
def loadTable (fs : String → FileState) (name : String) :
    Except String (List Row × List String) :=
  match registryTables.find? (fun p => p.1 == name) with
  | none => .error ("Unknown table name: " ++ name)
  | some meta =>
      match fs name with
      | .missing =>
          if meta.2 then
            .ok ([], ["Optional table " ++ name ++ " not found, skipping"])
          else
            .error ("Required DBF file not found: " ++ name)
      | .failing =>
          if meta.2 then
            .ok ([], ["Error loading " ++ name
                      ++ " (optional table, continuing)"])
          else
            .error ("Error loading " ++ name)
      | .rows rs => .ok (rs, [])

/-- `plugin.is_optional` for a registered name. -/
def isOptional (ps : List Plugin) (t : String) : Bool :=
  match ps.find? (fun p => p.name == t) with
  | some p => p.optional
  | none => false

/-- One iteration of the table loop of `load_all_tables`: a loadable
source appends its rows; a failing source appends `[]` with a recorded
message for an optional table (the plugin's own `load_data` swallows the
exception) and raises `DBFLoadError` for a required one; a missing source
appends `[]` with a recorded message for an optional table and raises
`FileNotFoundError` for a required one. -/
def loadStep (ps : List Plugin) (fs : String → FileState)
    (st : List (String × List Row) × List String) (t : String) :
    Except String (List (String × List Row) × List String) :=
  match fs t with
  | .rows rs => .ok (st.1 ++ [(t, rs)], st.2)
  | .failing =>
      if isOptional ps t then
        .ok (st.1 ++ [(t, [])],
          st.2 ++ ["Failed to load optional table " ++ t])
      else
        .error ("Error loading " ++ t)
  | .missing =>
      if isOptional ps t then
        .ok (st.1 ++ [(t, [])],
          st.2 ++ ["Optional table " ++ t ++ " not found"])
      else
        .error ("Required table " ++ t ++ " not found")

/-- `PluginRegistry.load_all_tables`: resolve the load order, then run
the table loop in that order.  Returns the loaded tables in load order
and the recorded recovery messages, or the first fatal error. -/
def loadAllTables (ps : List Plugin) (fs : String → FileState) :
    Except String (List (String × List Row) × List String) :=
  match resolveDependencies ps with
  | .error remaining =>
      .error ("Circular dependency detected involving tables: "
        ++ String.intercalate ", " remaining)
  | .ok order => order.foldlM (loadStep ps fs) ([], [])

/-! ## relationships_improved.RelationshipIndex -/

/-- The result of `RelationshipIndex.lookup`: Python `None`, a single
record, or a list of records. -/
inductive LookupRes where
  | nil
  | single (r : Row)
  | list (rs : List Row)
  deriving Repr, DecidableEq

/-- `self._indexes`: an insertion-ordered dict from `"table:field"` keys
to per-field indexes. -/
abbrev IndexStore := List (String × List (Value × TIdxVal))

/-- One iteration of the record loop of `RelationshipIndex.build_index`:
records with a `None` key are skipped; ONE_TO_ONE stores the record
itself (last insertion wins), every other cardinality appends to an
insertion-ordered list. -/
def buildIdxStep (fieldName : String) (relType : RelationType)
    (idx : List (Value × TIdxVal)) (r : Row) : List (Value × TIdxVal) :=
  match r.get fieldName with
  | none => idx
  | some k =>
      if relType == .oneToOne then
        assocSet idx k (.single r)
      else
        match assocGet idx k with
        | some (.many rs) => assocSet idx k (.many (rs ++ [r]))
        | some (.single _) => assocSet idx k (.many [r])
        | none => assocSet idx k (.many [r])

/-- The index built by the record loop of `RelationshipIndex.build_index`. -/
def buildIdxEntry (records : List Row) (fieldName : String)
    (relType : RelationType) : List (Value × TIdxVal) :=
  records.foldl (buildIdxStep fieldName relType) []

/-- `RelationshipIndex.build_index`: store the fresh index under
`"table_name:field_name"`. -/
def buildIndex (store : IndexStore) (tableName : String)
    (records : List Row) (fieldName : String) (relType : RelationType) :
    IndexStore :=
  assocSet store (tableName ++ ":" ++ fieldName)
    (buildIdxEntry records fieldName relType)

/-- Python `s.startswith(p)` (written on the character lists so that it
evaluates inside the kernel). -/
def pyStartsWith (s p : String) : Bool := p.data.isPrefixOf s.data

/-- `RelationshipIndex.lookup`: the first stored index whose key starts
with `"table_name:"` answers via `index.get(key)` (so a missing key on a
built index yields Python `None`); with no index for the table at all the
fallback returns `[]` for non-ONE_TO_ONE cardinalities and `None` for
ONE_TO_ONE. -/
def lookupIndex (store : IndexStore) (tableName : String) (key : Value)
    (relType : RelationType) : LookupRes :=
  match List.find? (fun p => pyStartsWith p.1 (tableName ++ ":")) store with
  | some p =>
      match assocGet p.2 key with
      | some (.single r) => .single r
      | some (.many rs) => .list rs
      | none => .nil
  | none => if relType != .oneToOne then .list [] else .nil

/-! ## Basic lemmas about the association-list dictionaries -/

theorem assocGet_assocSet {κ α : Type} [DecidableEq κ] [BEq κ] [LawfulBEq κ]
    (m : List (κ × α)) (k : κ) (v : α) (k' : κ) :
    assocGet (assocSet m k v) k' = if k' = k then some v else assocGet m k' := by
  induction m with
  | nil =>
      by_cases h : k' = k
      · subst h; simp [assocSet, assocGet, List.find?]
      · have hb : (k == k') = false :=
          beq_eq_false_iff_ne.mpr (fun hh => h hh.symm)
        simp [assocSet, assocGet, List.find?, hb, h]
  | cons p t ih =>
      obtain ⟨pk, pv⟩ := p
      by_cases hpk : pk = k
      · subst hpk
        by_cases h : k' = pk
        · subst h; simp [assocSet, assocGet, List.find?]
        · have hb : (pk == k') = false :=
            beq_eq_false_iff_ne.mpr (fun hh => h hh.symm)
          simp [assocSet, assocGet, List.find?, hb, h]
      · have hbeq : (pk == k) = false := beq_eq_false_iff_ne.mpr hpk
        by_cases h : k' = pk
        · subst h
          have hne : ¬ k' = k := hpk
          simp [assocSet, assocGet, List.find?, hbeq, hne]
        · have hbeq2 : (pk == k') = false :=
            beq_eq_false_iff_ne.mpr (fun hh => h hh.symm)
          simp only [assocSet, hbeq, if_false]
          simp only [assocGet, List.find?, hbeq2] at ih ⊢
          exact ih

/-- A `foldl` that only appends is a `flatMap`. -/
theorem foldl_eq_flatMap {α β : Type} (f : List β → α → List β)
    (g : α → List β) (hf : ∀ acc s, f acc s = acc ++ g s) (S : List α)
    (init : List β) :
    S.foldl f init = init ++ S.flatMap g := by
  induction S generalizing init with
  | nil => simp
  | cons s rest ih => simp [List.flatMap_cons, hf, ih]

/-! ## Characterization of the resolve_reference target index -/

/-- The rows already stored under key `v` (empty for absent keys). -/
def prevList (idx : List (Value × TIdxVal)) (v : Value) : List Row :=
  match assocGet idx v with
  | some (.many rs) => rs
  | _ => []

/-- Every stored value is a nonempty list. -/
def manyShaped (idx : List (Value × TIdxVal)) : Prop :=
  ∀ w, assocGet idx w = none
    ∨ ∃ rs, rs ≠ [] ∧ assocGet idx w = some (.many rs)

/-- Every stored value is a single record. -/
def singleShaped (idx : List (Value × TIdxVal)) : Prop :=
  ∀ w, assocGet idx w = none ∨ ∃ r, assocGet idx w = some (.single r)

theorem listy_guard {rel : TableRelationship}
    (h : rel.relationship_type = .oneToMany
       ∨ rel.relationship_type = .manyToMany) :
    (rel.relationship_type == RelationType.oneToMany
      || rel.relationship_type == RelationType.manyToMany) = true := by
  rcases h with h | h <;> simp [h]

theorem single_guard {rel : TableRelationship}
    (h : rel.relationship_type = .oneToOne
       ∨ rel.relationship_type = .manyToOne) :
    (rel.relationship_type == RelationType.oneToMany
      || rel.relationship_type == RelationType.manyToMany) = false := by
  rcases h with h | h <;> simp [h]

theorem foldl_indexInsert_listy (rel : TableRelationship)
    (h : rel.relationship_type = .oneToMany
       ∨ rel.relationship_type = .manyToMany) :
    ∀ (T : List Row) (idx : List (Value × TIdxVal)), manyShaped idx →
      ∀ v, assocGet (T.foldl (indexInsert rel) idx) v =
        (if (prevList idx v
              ++ T.filter (fun t => t.get rel.target_field == some v)).isEmpty
         then none
         else some (.many (prevList idx v
              ++ T.filter (fun t => t.get rel.target_field == some v)))) := by
  intro T
  induction T with
  | nil =>
      intro idx hm v
      simp only [List.foldl_nil, List.filter_nil, List.append_nil]
      rcases hm v with hv | ⟨rs, hne, hv⟩
      · simp [prevList, hv]
      · simp [prevList, hv, hne]
  | cons t rest ih =>
      intro idx hm v
      simp only [List.foldl_cons]
      rcases ht : t.get rel.target_field with _ | k
      · have hskip : indexInsert rel idx t = idx := by
          simp [indexInsert, ht]
        have hpred : (t.get rel.target_field == some v) = false := by
          simp [ht]
        rw [hskip, ih idx hm v]
        simp [List.filter_cons, hpred]
      · -- a key is present: the new index extends the list at k with t
        have hguard := listy_guard h
        have hins : indexInsert rel idx t
            = assocSet idx k (.many (prevList idx k ++ [t])) := by
          simp only [indexInsert, ht, hguard, if_true]
          rcases hm k with hv | ⟨rs, _, hv⟩
          · simp [hv, prevList]
          · simp [hv, prevList]
        have hshape : manyShaped (assocSet idx k (.many (prevList idx k ++ [t]))) := by
          intro w
          rw [assocGet_assocSet]
          by_cases hw : w = k
          · right
            exact ⟨prevList idx k ++ [t], by simp, by simp [hw]⟩
          · simpa [hw] using hm w
        rw [hins, ih _ hshape v]
        have hprev : prevList (assocSet idx k (.many (prevList idx k ++ [t]))) v
            = prevList idx v
              ++ (if (t.get rel.target_field == some v) then [t] else []) := by
          by_cases hw : v = k
          · subst hw
            simp [prevList, assocGet_assocSet, ht]
          · have hpred : (t.get rel.target_field == some v) = false := by
              simp [ht]
              exact fun hh => hw hh.symm
            simp [prevList, assocGet_assocSet, hw, hpred]
        rw [hprev, List.filter_cons]
        by_cases hp : (t.get rel.target_field == some v) = true
        · simp [hp]
        · simp [Bool.not_eq_true] at hp
          simp [hp]

theorem foldl_indexInsert_single (rel : TableRelationship)
    (h : rel.relationship_type = .oneToOne
       ∨ rel.relationship_type = .manyToOne) :
    ∀ (T : List Row) (idx : List (Value × TIdxVal)), singleShaped idx →
      ∀ v, assocGet (T.foldl (indexInsert rel) idx) v =
        (match (T.filter (fun t => t.get rel.target_field == some v)).getLast? with
         | some u => some (.single u)
         | none => assocGet idx v) := by
  intro T
  induction T with
  | nil =>
      intro idx _ v
      simp
  | cons t rest ih =>
      intro idx hs v
      simp only [List.foldl_cons]
      rcases ht : t.get rel.target_field with _ | k
      · have hskip : indexInsert rel idx t = idx := by
          simp [indexInsert, ht]
        have hpred : (t.get rel.target_field == some v) = false := by
          simp [ht]
        rw [hskip, ih idx hs v]
        simp [List.filter_cons, hpred]
      · have hguard := single_guard h
        have hins : indexInsert rel idx t = assocSet idx k (.single t) := by
          simp [indexInsert, ht, hguard]
        have hshape : singleShaped (assocSet idx k (.single t)) := by
          intro w
          rw [assocGet_assocSet]
          by_cases hw : w = k
          · exact Or.inr ⟨t, by simp [hw]⟩
          · simpa [hw] using hs w
        rw [hins, ih _ hshape v]
        rw [List.filter_cons]
        by_cases hw : v = k
        · subst hw
          rw [if_pos (by simp [ht])]
          rcases hrf : List.filter
              (fun t => t.get rel.target_field == some v) rest with _ | ⟨x, xs⟩
          · rw [hrf]
            simp only [List.getLast?_nil, List.getLast?_singleton]
            rw [assocGet_assocSet]
            simp
          · rw [hrf, List.getLast?_cons_cons]
            rcases hlast : (x :: xs).getLast? with _ | u
            · exact absurd (List.getLast?_eq_none_iff.mp hlast) (by simp)
            · rfl
        · rw [if_neg (by simp [ht]; exact fun hh => hw hh.symm)]
          rcases hlast : (List.filter
              (fun t => t.get rel.target_field == some v) rest).getLast? with _ | u
          · rw [hlast]
            simp only [assocGet_assocSet]
            simp [hw]
          · rw [hlast]

theorem matchPairs_listy (rel : TableRelationship)
    (h : rel.relationship_type = .oneToMany
       ∨ rel.relationship_type = .manyToMany) (S T : List Row) :
    matchPairs rel S T = S.flatMap (fun s =>
      match s.get rel.source_field with
      | none => []
      | some v => (T.filter (fun t => t.get rel.target_field == some v)).map
          (fun t => (s, t))) := by
  unfold matchPairs
  have hidx := foldl_indexInsert_listy rel h T []
    (fun w => Or.inl rfl)
  refine Eq.trans (foldl_eq_flatMap _ _ ?_ S []) (List.nil_append _)
  intro acc s
  rcases hgs : s.get rel.source_field with _ | v
  · simp
  · show (match assocGet (buildTargetIndex rel T) v with
      | none => acc
      | some (.many rs) => acc ++ rs.map (fun t => (s, t))
      | some (.single t) => acc ++ [(s, t)])
      = acc ++ (T.filter (fun t => t.get rel.target_field == some v)).map
          (fun t => (s, t))
    unfold buildTargetIndex
    rcases hf : T.filter (fun t => t.get rel.target_field == some v)
        with _ | ⟨x, xs⟩ <;>
      · rw [hidx v, hf]
        simp [prevList, assocGet]

theorem matchPairs_single (rel : TableRelationship)
    (h : rel.relationship_type = .oneToOne
       ∨ rel.relationship_type = .manyToOne) (S T : List Row) :
    matchPairs rel S T = S.flatMap (fun s =>
      match s.get rel.source_field with
      | none => []
      | some v =>
          match (T.filter (fun t => t.get rel.target_field == some v)).getLast? with
          | none => []
          | some u => [(s, u)]) := by
  unfold matchPairs
  have hidx := foldl_indexInsert_single rel h T []
    (fun w => Or.inl rfl)
  refine Eq.trans (foldl_eq_flatMap _ _ ?_ S []) (List.nil_append _)
  intro acc s
  rcases hgs : s.get rel.source_field with _ | v
  · simp
  · show (match assocGet (buildTargetIndex rel T) v with
      | none => acc
      | some (.many rs) => acc ++ rs.map (fun t => (s, t))
      | some (.single t) => acc ++ [(s, t)])
      = acc ++ (match (T.filter
            (fun t => t.get rel.target_field == some v)).getLast? with
          | none => []
          | some u => [(s, u)])
    unfold buildTargetIndex
    rcases hf : (T.filter
        (fun t => t.get rel.target_field == some v)).getLast? with _ | u <;>
      · rw [hidx v, hf]
        try simp [assocGet]

theorem mem_matchPairs_listy (rel : TableRelationship)
    (h : rel.relationship_type = .oneToMany
       ∨ rel.relationship_type = .manyToMany) (S T : List Row) (a b : Row) :
    (a, b) ∈ matchPairs rel S T ↔
      (a ∈ S ∧ ∃ v, a.get rel.source_field = some v
        ∧ b ∈ T ∧ b.get rel.target_field = some v) := by
  rw [matchPairs_listy rel h, List.mem_flatMap]
  constructor
  · rintro ⟨s, hs, hmem⟩
    rcases hgs : s.get rel.source_field with _ | v
    · rw [hgs] at hmem
      simp only [] at hmem
      exact absurd hmem (List.not_mem_nil _)
    · rw [hgs] at hmem
      simp only [List.mem_map, List.mem_filter] at hmem
      obtain ⟨t, ⟨htT, htv⟩, hab⟩ := hmem
      injection hab with h1 h2
      subst h1
      subst h2
      exact ⟨hs, v, hgs, htT, by simpa using htv⟩
  · rintro ⟨ha, v, hav, hb, hbv⟩
    refine ⟨a, ha, ?_⟩
    rw [hav]
    simp only [List.mem_map, List.mem_filter]
    exact ⟨b, ⟨hb, by simp [hbv]⟩, rfl⟩

theorem mem_matchPairs_single (rel : TableRelationship)
    (h : rel.relationship_type = .oneToOne
       ∨ rel.relationship_type = .manyToOne) (S T : List Row) (a b : Row) :
    (a, b) ∈ matchPairs rel S T ↔
      (a ∈ S ∧ ∃ v, a.get rel.source_field = some v
        ∧ (T.filter (fun t => t.get rel.target_field == some v)).getLast?
            = some b) := by
  rw [matchPairs_single rel h, List.mem_flatMap]
  constructor
  · rintro ⟨s, hs, hmem⟩
    rcases hgs : s.get rel.source_field with _ | v
    · rw [hgs] at hmem
      simp only [] at hmem
      exact absurd hmem (List.not_mem_nil _)
    · rw [hgs] at hmem
      simp only [] at hmem
      rcases hlast : (T.filter
          (fun t => t.get rel.target_field == some v)).getLast? with _ | u
      · rw [hlast] at hmem
        simp only [] at hmem
        exact absurd hmem (List.not_mem_nil _)
      · rw [hlast] at hmem
        simp only [List.mem_singleton] at hmem
        injection hmem with h1 h2
        subst h1
        subst h2
        exact ⟨hs, v, hgs, hlast⟩
  · rintro ⟨ha, v, hav, hlast⟩
    refine ⟨a, ha, ?_⟩
    rw [hav]
    simp only []
    rw [hlast]
    simp

/-! ## Concrete fixtures used by witnesses and counterexamples -/

def rowAnnette : Row := ⟨[("name", .str "Annette")]⟩
def rowBen : Row := ⟨[("name", .str "Ben")]⟩
def empRow : Row := ⟨[("id", .int 1), ("name", .str "John")]⟩
def absRow : Row := ⟨[("id", .int 7), ("employee_id", .int 1)]⟩
def mashiRow : Row := ⟨[("id", .int 3), ("employee_id", .int 1)]⟩
def relEmplAbsen : TableRelationship :=
  mkRel "5EMPL" "id" "5ABSEN" "employee_id" .oneToMany
    "Employee has many absences" "ID" "EMPLOYEEID"
def tablesT : Tables := [("T", [empRow])]
def tablesAB : Tables := [("5EMPL", [empRow]), ("5ABSEN", [absRow])]

/-! ## C6 — Filter.apply semantics -/

/-- C6: `Filter.apply` implements the specified semantics: IS_NULL holds
exactly on absent (`None`) fields and never on an empty string; every
operator other than IS_NULL is a non-match on an absent field;
CONTAINS / STARTS_WITH / ENDS_WITH are the case-insensitive
substring / prefix / suffix tests on the lowered renderings, so
CONTAINS "ann" matches "Annette" and not "Ben". -/
theorem filter_apply_semantics :
    (∀ (r : Row) (f : String) (w : FVal),
      Filter.apply ⟨f, .IS_NULL, w⟩ r = true ↔ r.get f = none) ∧
    (∀ (r : Row) (f : String) (w : FVal) (op : FilterOperator),
      r.get f = none → op ≠ .IS_NULL → Filter.apply ⟨f, op, w⟩ r = false) ∧
    (∀ (r : Row) (f : String) (w : FVal),
      r.get f = some (.str "") → Filter.apply ⟨f, .IS_NULL, w⟩ r = false) ∧
    (∀ (r : Row) (f : String) (s c : String), r.get f = some (.str s) →
      Filter.apply ⟨f, .CONTAINS, .v (.str c)⟩ r
        = pySubstr (pyLower c) (pyLower s)) ∧
    (∀ (r : Row) (f : String) (s c : String), r.get f = some (.str s) →
      Filter.apply ⟨f, .STARTS_WITH, .v (.str c)⟩ r
        = (pyLower s).startsWith (pyLower c)) ∧
    (∀ (r : Row) (f : String) (s c : String), r.get f = some (.str s) →
      Filter.apply ⟨f, .ENDS_WITH, .v (.str c)⟩ r
        = (pyLower s).endsWith (pyLower c)) ∧
    Filter.apply ⟨"name", .CONTAINS, .v (.str "ann")⟩ rowAnnette = true ∧
    Filter.apply ⟨"name", .CONTAINS, .v (.str "ann")⟩ rowBen = false := by
  refine ⟨?_, ?_, ?_, ?_, ?_, ?_, by rfl, by rfl⟩
  · intro r f w
    unfold Filter.apply
    rcases h : r.get f with _ | v <;> simp [h]
  · intro r f w op hget hop
    unfold Filter.apply
    cases op <;> simp [hget] at hop ⊢
  · intro r f w hget
    unfold Filter.apply
    simp [hget]
  · intro r f s c hget
    unfold Filter.apply
    simp [hget, Value.toStr, FVal.toStr]
  · intro r f s c hget
    unfold Filter.apply
    simp [hget, Value.toStr, FVal.toStr]
  · intro r f s c hget
    unfold Filter.apply
    simp [hget, Value.toStr, FVal.toStr]

/-- Witness for C6 at concrete inputs. -/
theorem filter_apply_semantics_witness :
    (Filter.apply ⟨"x", .IS_NULL, .v (.str "")⟩ rowAnnette = true
      ↔ rowAnnette.get "x" = none) ∧
    Filter.apply ⟨"x", .EQUALS, .v (.int 1)⟩ rowAnnette = false ∧
    Filter.apply ⟨"name", .IS_NULL, .v (.int 0)⟩ (⟨[("name", .str "")]⟩ : Row)
      = false :=
  ⟨filter_apply_semantics.1 rowAnnette "x" (.v (.str "")),
   filter_apply_semantics.2.1 rowAnnette "x" (.v (.int 1)) .EQUALS rfl
     (by decide),
   filter_apply_semantics.2.2.1 (⟨[("name", .str "")]⟩ : Row) "name"
     (.v (.int 0)) rfl⟩

/-! ## C10 — the 5MASHI → 5SPSHI alias -/

/-- C10: when "5MASHI" is not loaded but "5SPSHI" is, `select` and `join`
silently operate on "5SPSHI" (and a subsequent bare execute scans the
5SPSHI rows); for any other table name, and when "5MASHI" itself is
loaded, no aliasing occurs. -/
theorem mashi_alias (tables : Tables) (q : Query) (table : String) :
    (lookupTable tables "5MASHI" = none →
      ∀ rs, lookupTable tables "5SPSHI" = some rs →
        normalizeTableName tables "5MASHI" = "5SPSHI" ∧
        Query.select tables q "5MASHI" none
          = .ok { q with fromTable := some "5SPSHI", selectFields := none } ∧
        Query.join tables q "5MASHI"
          = .ok { q with joins := q.joins ++ ["5SPSHI"] } ∧
        ∀ rels, Query.execute rels tables { fromTable := some "5SPSHI" }
          = .ok ⟨rs.map RRow.plain, (rs.map RRow.plain).length⟩) ∧
    (table ≠ "5MASHI" → normalizeTableName tables table = table) ∧
    ((lookupTable tables "5MASHI").isSome →
      normalizeTableName tables "5MASHI" = "5MASHI") := by
  refine ⟨?_, ?_, ?_⟩
  · intro hm rs hs
    have hnorm : normalizeTableName tables "5MASHI" = "5SPSHI" := by
      simp [normalizeTableName, hm, hs]
    refine ⟨hnorm, ?_, ?_, ?_⟩
    · simp [Query.select, hnorm, hs]
    · simp [Query.join, hnorm, hs]
    · intro rels
      simp [Query.execute, executePipeline, hs, Except.map]
  · intro ht
    simp [normalizeTableName, ht]
  · intro hm
    simp [normalizeTableName, Option.isNone_iff_eq_none, hm]
    intro hnone
    rw [hnone] at hm
    simp at hm

/-- Witness for C10: "5MASHI" absent, "5SPSHI" loaded. -/
theorem mashi_alias_witness :
    normalizeTableName [("5SPSHI", [mashiRow])] "5MASHI" = "5SPSHI" ∧
    Query.select [("5SPSHI", [mashiRow])] {} "5MASHI" none
      = .ok { fromTable := some "5SPSHI", selectFields := none } ∧
    Query.join [("5SPSHI", [mashiRow])] {} "5MASHI"
      = .ok { joins := ["5SPSHI"] } ∧
    ∀ rels, Query.execute rels [("5SPSHI", [mashiRow])]
        { fromTable := some "5SPSHI" }
      = .ok ⟨[mashiRow].map RRow.plain, ([mashiRow].map RRow.plain).length⟩ :=
  (mashi_alias [("5SPSHI", [mashiRow])] {} "X").1 rfl [mashiRow] rfl

/-! ## C3 — join + with_relations is not rejected -/

def qJoinAndRelations : Query :=
  { fromTable := some "5EMPL", joins := ["5ABSEN"], enrichDepth := 1 }

/-- C3 counterexample: building a query with both an explicit `join` and
`with_relations(1)` raises no error at build time (contradicting the
claimed eager `QueryValidationError`) and even executes successfully. -/
theorem join_withrelations_not_rejected :
    ((Query.select tablesAB {} "5EMPL" none).bind
      (fun q1 => (Query.join tablesAB q1 "5ABSEN").map
        (fun q2 => q2.withRelations 1)))
      = .ok qJoinAndRelations
    ∧ (Query.execute definedRelationships tablesAB
        qJoinAndRelations).toOption.isSome = true := ⟨rfl, rfl⟩

/-- C3 amended: no validation relates `join` and `with_relations`; at
execution the explicit-joins branch takes precedence and the enrichment
depth is ignored whenever any join is present. -/
theorem execute_joins_precedence (rels : List TableRelationship)
    (tables : Tables) (q : Query) (h : q.joins ≠ []) :
    Query.execute rels tables q
      = Query.execute rels tables { q with enrichDepth := 0 } := by
  have hj : q.joins.isEmpty = false := by
    simpa [List.isEmpty_iff] using h
  simp [Query.execute, executePipeline, hj]

/-- Witness for C3's amended theorem at the concrete fixture. -/
theorem execute_joins_precedence_witness :
    Query.execute definedRelationships tablesAB qJoinAndRelations
      = Query.execute definedRelationships tablesAB
          { qJoinAndRelations with enrichDepth := 0 } :=
  execute_joins_precedence definedRelationships tablesAB qJoinAndRelations
    (by decide)

/-! ## C1 — pagination -/

def qLimit0 : Query := { fromTable := some "T", limit := some 0 }
def qLimit5 : Query := { fromTable := some "T", limit := some 5 }

/-- C1 counterexample: with `limit(0)` the Python truthiness guard
`if self._limit:` skips truncation, so a one-row table yields one row —
not `sorted(...)[0:0] = []` and not `count ≤ 0`. -/
theorem limit_zero_not_applied :
    qLimit0.limit = some 0
    ∧ Query.execute [] tablesT qLimit0 = .ok ⟨[RRow.plain empRow], 1⟩
    ∧ ¬ ((1 : Int) ≤ 0) := ⟨rfl, rfl, by decide⟩

/-- C1 amended: for every executed query whose limit is unset or
positive (limit 0 behaves as "no limit") and whose offset is
non-negative, the result rows are exactly
`sorted(filtered(joined(scan)))[offset : offset+limit]`, the count equals
the number of returned rows, and the count is at most the limit. -/
theorem execute_paginates (rels : List TableRelationship) (tables : Tables)
    (q : Query) (res : QueryResult)
    (hexec : Query.execute rels tables q = .ok res)
    (hoff : 0 ≤ q.offset)
    (hlim : q.limit = none ∨ ∃ n : Int, q.limit = some n ∧ 0 < n) :
    ∃ pipe, executePipeline rels tables q = .ok pipe ∧
      res.records = (match q.limit with
        | none => pipe.drop q.offset.toNat
        | some n => (pipe.drop q.offset.toNat).take n.toNat) ∧
      res.count = res.records.length ∧
      (∀ n, q.limit = some n → (res.count : Int) ≤ n) := by
  unfold Query.execute at hexec
  rcases hpipe : executePipeline rels tables q with e | pipe
  · rw [hpipe] at hexec
    exact absurd hexec (by simp [Except.map])
  · rw [hpipe] at hexec
    simp only [Except.map, Except.ok.injEq] at hexec
    refine ⟨pipe, rfl, ?_⟩
    have hdrop : (if q.offset != 0 then pySliceFrom pipe q.offset else pipe)
        = pipe.drop q.offset.toNat := by
      by_cases h0 : q.offset = 0
      · simp [h0]
      · have : (q.offset != 0) = true := by simpa using h0
        simp only [this, if_true]
        unfold pySliceFrom
        rw [if_pos hoff]
    rcases hlim with hnone | ⟨n, hsome, hn⟩
    · rw [hnone] at hexec
      simp only [] at hexec
      rw [hdrop] at hexec
      subst hexec
      refine ⟨by simp [hnone], rfl, ?_⟩
      intro n h
      rw [hnone] at h
      cases h
    · rw [hsome] at hexec
      simp only [] at hexec
      have hne : (n != 0) = true := by
        simp only [bne_iff_ne, ne_eq]
        omega
      rw [hne] at hexec
      simp only [if_true, hdrop] at hexec
      have htake : pySliceTake (pipe.drop q.offset.toNat) n
          = (pipe.drop q.offset.toNat).take n.toNat := by
        unfold pySliceTake
        rw [if_pos (le_of_lt hn)]
      rw [htake] at hexec
      subst hexec
      refine ⟨by simp [hsome], rfl, ?_⟩
      intro m hm
      rw [hsome] at hm
      injection hm with hm
      subst hm
      have hlen : ((pipe.drop q.offset.toNat).take n.toNat).length
          ≤ n.toNat := by
        simp
      calc (((pipe.drop q.offset.toNat).take n.toNat).length : Int)
          ≤ (n.toNat : Int) := by exact_mod_cast hlen
        _ = n := Int.toNat_of_nonneg (le_of_lt hn)

/-- Witness for C1's amended theorem (limit 5, one-row table). -/
theorem execute_paginates_witness :
    ∃ pipe, executePipeline [] tablesT qLimit5 = .ok pipe ∧
      (QueryResult.mk [RRow.plain empRow] 1).records = (match qLimit5.limit with
        | none => pipe.drop qLimit5.offset.toNat
        | some n => (pipe.drop qLimit5.offset.toNat).take n.toNat) ∧
      (QueryResult.mk [RRow.plain empRow] 1).count
        = (QueryResult.mk [RRow.plain empRow] 1).records.length ∧
      (∀ n, qLimit5.limit = some n →
        ((QueryResult.mk [RRow.plain empRow] 1).count : Int) ≤ n) :=
  execute_paginates [] tablesT qLimit5 ⟨[RRow.plain empRow], 1⟩ rfl
    (by decide) (Or.inr ⟨5, rfl, by decide⟩)

/-! ## C4 — reverse-schema synthesis -/

/-- C4 counterexample: for the registered `5EMPL → 5ABSEN` ONE_TO_MANY
schema, the schema synthesized by `resolve_reference` for the pair
(A = "5ABSEN", B = "5EMPL") is not the spec's mirrored schema: the
cardinality is kept (ONE_TO_MANY, not inverted to MANY_TO_ONE) and the
synthesized source table is B ("5EMPL"), not A ("5ABSEN"). -/
theorem synthesize_reverse_counterexample :
    synthesizeReverse "5ABSEN" "5EMPL" relEmplAbsen
      ≠ mirrorSchemaSpec "5ABSEN" "5EMPL" relEmplAbsen
    ∧ (synthesizeReverse "5ABSEN" "5EMPL" relEmplAbsen).relationship_type
        = .oneToMany
    ∧ (mirrorSchemaSpec "5ABSEN" "5EMPL" relEmplAbsen).relationship_type
        = .manyToOne
    ∧ (synthesizeReverse "5ABSEN" "5EMPL" relEmplAbsen).source_table
        = "5EMPL"
    ∧ (mirrorSchemaSpec "5ABSEN" "5EMPL" relEmplAbsen).source_table
        = "5ABSEN" := ⟨by decide, rfl, rfl, rfl, rfl⟩

/-- C4 amended: in the reverse branch, `resolve_reference` keeps the
cardinality of the B→A schema unchanged and swaps the two data lists
together with the two field names, so each field name is read on the
opposite table's rows: the returned pairs are exactly the (B-row, A-row)
pairs whose value at the B→A schema's *target* field (read on the B row)
equals the value at its *source* field (read on the A row). -/
theorem resolve_reference_reverse_law (rels : List TableRelationship)
    (S T : List Row) (A B : String) (rel : TableRelationship)
    (hfwd : findForwardRel rels A B = none)
    (hrev : findReverseRel rels A B = some rel)
    (hty : rel.relationship_type = .oneToMany
        ∨ rel.relationship_type = .manyToMany) :
    ∃ pairs, resolveReference rels S A B T = .ok pairs ∧
      (synthesizeReverse A B rel).relationship_type = rel.relationship_type
      ∧ ∀ p q, (p, q) ∈ pairs ↔
          (p ∈ T ∧ ∃ v, p.get rel.target_field = some v
            ∧ q ∈ S ∧ q.get rel.source_field = some v) := by
  refine ⟨matchPairs (synthesizeReverse A B rel) T S, ?_, rfl, ?_⟩
  · unfold resolveReference
    rw [hfwd, hrev]
  · intro p q
    exact mem_matchPairs_listy (synthesizeReverse A B rel) hty T S p q

/-- Witness for C4's amended theorem: only `5EMPL → 5ABSEN` is
registered; resolving from "5ABSEN" to "5EMPL" goes through synthesis. -/
theorem resolve_reference_reverse_law_witness :
    ∃ pairs, resolveReference [relEmplAbsen] [absRow] "5ABSEN" "5EMPL" [empRow]
        = .ok pairs ∧
      (synthesizeReverse "5ABSEN" "5EMPL" relEmplAbsen).relationship_type
        = relEmplAbsen.relationship_type
      ∧ ∀ p q, (p, q) ∈ pairs ↔
          (p ∈ [empRow] ∧ ∃ v, p.get relEmplAbsen.target_field = some v
            ∧ q ∈ [absRow] ∧ q.get relEmplAbsen.source_field = some v) :=
  resolve_reference_reverse_law [relEmplAbsen] [absRow] [empRow]
    "5ABSEN" "5EMPL" relEmplAbsen rfl rfl (Or.inl rfl)

/-! ## C5 — the symmetry law -/

/-- C5 counterexample: with only the `5EMPL → 5ABSEN` schema defined,
`resolve_reference(5EMPL, 5ABSEN)` finds the matching pair but
`resolve_reference(5ABSEN, 5EMPL)` — which goes through the synthesized
reverse schema — returns no matches at all, so the two directions are not
swaps of each other. -/
theorem resolve_reference_not_symmetric :
    resolveReference definedRelationships [empRow] "5EMPL" "5ABSEN" [absRow]
      = .ok [(empRow, absRow)]
    ∧ resolveReference definedRelationships [absRow] "5ABSEN" "5EMPL" [empRow]
      = .ok []
    ∧ ([] : List (Row × Row)) ≠ [(absRow, empRow)] :=
  ⟨rfl, rfl, by decide⟩

/-- C5 amended: the symmetry law does hold in the situation the code's
own relationship table realises for mirrored pairs (e.g. 5EMPL↔5MASHI):
when both directions are explicitly registered with mirrored key fields —
A→B as ONE_TO_MANY on (fa, fb) and B→A as MANY_TO_ONE on (fb, fa) — and
the A rows are unambiguous on fa (no two distinct A rows share a present
fa value, which the MANY_TO_ONE index's last-insertion-wins collapse
otherwise breaks), the two directions return exactly swapped pairs.  When
only one direction is registered, synthesis reads the swapped field names
on the wrong tables and symmetry fails (see the counterexample). -/
theorem resolve_reference_symmetric_both_registered
    (rels : List TableRelationship) (A B fa fb : String)
    (r1 r2 : TableRelationship) (S T : List Row)
    (h1 : findForwardRel rels A B = some r1)
    (h2 : findForwardRel rels B A = some r2)
    (hr1s : r1.source_field = fa) (hr1t : r1.target_field = fb)
    (hr1ty : r1.relationship_type = .oneToMany)
    (hr2s : r2.source_field = fb) (hr2t : r2.target_field = fa)
    (hr2ty : r2.relationship_type = .manyToOne)
    (hinj : ∀ a1 ∈ S, ∀ a2 ∈ S, ∀ v : Value,
      a1.get fa = some v → a2.get fa = some v → a1 = a2) :
    ∃ fwd rev, resolveReference rels S A B T = .ok fwd
      ∧ resolveReference rels T B A S = .ok rev
      ∧ ∀ a b, ((a, b) ∈ fwd ↔ (b, a) ∈ rev) := by
  refine ⟨matchPairs r1 S T, matchPairs r2 T S, ?_, ?_, ?_⟩
  · unfold resolveReference
    rw [h1]
  · unfold resolveReference
    rw [h2]
  · intro a b
    rw [mem_matchPairs_listy r1 (Or.inl hr1ty) S T a b,
      mem_matchPairs_single r2 (Or.inr hr2ty) T S b a]
    rw [hr1s, hr1t, hr2s, hr2t]
    constructor
    · rintro ⟨ha, v, hav, hb, hbv⟩
      refine ⟨hb, v, hbv, ?_⟩
      rcases hlast : (S.filter (fun t => t.get fa == some v)).getLast?
          with _ | x
      · rw [List.getLast?_eq_none_iff] at hlast
        have : a ∈ S.filter (fun t => t.get fa == some v) :=
          List.mem_filter.mpr ⟨ha, by simp [hav]⟩
        rw [hlast] at this
        cases this
      · have hx : x ∈ S.filter (fun t => t.get fa == some v) :=
          List.mem_of_mem_getLast? hlast
        rw [List.mem_filter] at hx
        have hxa : x = a :=
          hinj x hx.1 a ha v (by simpa using hx.2) hav
        rw [hxa] at hlast
        exact hlast
    · rintro ⟨hb, v, hbv, hlast⟩
      have hafil : a ∈ S.filter (fun t => t.get fa == some v) :=
        List.mem_of_mem_getLast? hlast
      rw [List.mem_filter] at hafil
      exact ⟨hafil.1, v, by simpa using hafil.2, hb, hbv⟩

def relEmplMashi : TableRelationship :=
  mkRel "5EMPL" "id" "5MASHI" "employee_id" .oneToMany
    "Employee has many shifts" "ID" "EMPLOYEEID"
def relMashiEmpl : TableRelationship :=
  mkRel "5MASHI" "employee_id" "5EMPL" "id" .manyToOne
    "Employee shift belongs to employee" "EMPLOYEEID" "ID"

/-- Witness for C5's amended theorem on the mirrored
5EMPL↔5MASHI pair of the defined relationship table. -/
theorem resolve_reference_symmetric_witness :
    ∃ fwd rev, resolveReference definedRelationships [empRow]
        "5EMPL" "5MASHI" [mashiRow] = .ok fwd
      ∧ resolveReference definedRelationships [mashiRow]
          "5MASHI" "5EMPL" [empRow] = .ok rev
      ∧ ∀ a b, ((a, b) ∈ fwd ↔ (b, a) ∈ rev) :=
  resolve_reference_symmetric_both_registered definedRelationships
    "5EMPL" "5MASHI" "id" "employee_id" relEmplMashi relMashiEmpl
    [empRow] [mashiRow] rfl rfl rfl rfl rfl rfl rfl rfl
    (by
      intro a1 h1 a2 h2 v hv1 hv2
      simp only [List.mem_singleton] at h1 h2
      rw [h1, h2])

/-! ## C7 — RelationshipIndex lookup cardinality -/

def absenIdxStore : IndexStore :=
  buildIndex [] "5ABSEN" [absRow] "employee_id" .oneToMany

/-- C7 counterexample: on a built ONE_TO_MANY index, a missing key is
answered by `index.get(key)` and yields Python `None` — not a list — so
"under ONE_TO_MANY ... it always returns a list (possibly empty)" fails. -/
theorem lookup_miss_returns_none :
    lookupIndex absenIdxStore "5ABSEN" (.int 2) .oneToMany = .nil
    ∧ ∀ rs, LookupRes.nil ≠ LookupRes.list rs :=
  ⟨rfl, fun _ h => by cases h⟩

/-- Store states reachable by `build_index` calls whose cardinality is a
function `rt` of the table (as in `build_data_indexes`, which always
passes the schema's own cardinality); table names contain no ':' (they
could otherwise collide inside the string-keyed index dict). -/
inductive WellBuilt (rt : String → RelationType) : IndexStore → Prop where
  | nil : WellBuilt rt []
  | build (store : IndexStore) (tableName : String) (records : List Row)
      (fieldName : String) (hcolon : ':' ∉ tableName.data)
      (hw : WellBuilt rt store) :
      WellBuilt rt (buildIndex store tableName records fieldName (rt tableName))

theorem mem_assocSet {κ α : Type} [BEq κ] [LawfulBEq κ]
    (m : List (κ × α)) (k : κ) (v : α)
    (p : κ × α) (hp : p ∈ assocSet m k v) : p = (k, v) ∨ p ∈ m := by
  induction m with
  | nil =>
      simp only [assocSet] at hp
      exact Or.inl (List.mem_singleton.mp hp)
  | cons q t ih =>
      obtain ⟨qk, qv⟩ := q
      by_cases hqk : (qk == k) = true
      · simp only [assocSet, hqk, if_true] at hp
        rcases List.mem_cons.mp hp with h | h
        · left
          rw [h, eq_of_beq hqk]
        · exact Or.inr (List.mem_cons_of_mem _ h)
      · simp only [assocSet, hqk, if_false] at hp
        rcases List.mem_cons.mp hp with h | h
        · exact Or.inr (h ▸ List.mem_cons_self _ _)
        · rcases ih h with h1 | h1
          · exact Or.inl h1
          · exact Or.inr (List.mem_cons_of_mem _ h1)

theorem assocGet_mem {κ α : Type} [BEq κ] [LawfulBEq κ]
    (m : List (κ × α)) (k : κ) (v : α) (h : assocGet m k = some v) :
    (k, v) ∈ m := by
  unfold assocGet at h
  rcases hf : m.find? (fun p => p.1 == k) with _ | p
  · rw [hf] at h
    cases h
  · rw [hf] at h
    injection h with h
    have hpred : p.1 = k := by simpa using List.find?_some hf
    have hmem := List.mem_of_find?_eq_some hf
    have hpv : p = (k, v) := by
      obtain ⟨p1, p2⟩ := p
      simp only at hpred h
      rw [hpred, h]
    rw [← hpv]
    exact hmem

theorem colon_prefix_list : ∀ (b a tail : List Char), ':' ∉ a → ':' ∉ b →
    (b ++ [':']) <+: (a ++ ':' :: tail) → b = a := by
  intro b
  induction b with
  | nil =>
      intro a tail ha _ hp
      cases a with
      | nil => rfl
      | cons c as =>
          rw [List.nil_append, List.cons_append, List.cons_prefix_cons] at hp
          exact absurd (by rw [hp.1]; exact List.mem_cons_self _ _) ha
  | cons d bs ih =>
      intro a tail ha hb hp
      cases a with
      | nil =>
          rw [List.cons_append, List.nil_append,
            List.cons_prefix_cons] at hp
          exact absurd (by rw [← hp.1]; exact List.mem_cons_self _ _) hb
      | cons c as =>
          rw [List.cons_append, List.cons_append,
            List.cons_prefix_cons] at hp
          have hbs : bs = as := ih as tail
            (fun hmem => ha (List.mem_cons_of_mem _ hmem))
            (fun hmem => hb (List.mem_cons_of_mem _ hmem)) hp.2
          rw [hp.1, hbs]

theorem pyStartsWith_colon_unique (tn fn t : String)
    (h1 : ':' ∉ tn.data) (h2 : ':' ∉ t.data)
    (hp : pyStartsWith (tn ++ ":" ++ fn) (t ++ ":") = true) : t = tn := by
  unfold pyStartsWith at hp
  rw [List.isPrefixOf_iff_prefix] at hp
  have hdata : (tn ++ ":" ++ fn).data = tn.data ++ ':' :: fn.data := by
    simp [String.data_append]
  have hdata2 : (t ++ ":").data = t.data ++ [':'] := by
    simp [String.data_append]
  rw [hdata, hdata2] at hp
  exact String.ext (colon_prefix_list t.data tn.data fn.data h1 h2 hp)

/-- The value shape that `build_index` produces for a cardinality. -/
abbrev ShapeOf (relType : RelationType) (v : TIdxVal) : Prop :=
  if relType = .oneToOne then (∃ r, v = .single r) else (∃ rs, v = .many rs)

theorem buildIdxStep_shape (fieldName : String) (relType : RelationType)
    (idx : List (Value × TIdxVal)) (r : Row)
    (hidx : ∀ kv ∈ idx, ShapeOf relType kv.2) :
    ∀ kv ∈ buildIdxStep fieldName relType idx r, ShapeOf relType kv.2 := by
  intro kv hkv
  unfold buildIdxStep at hkv
  rcases hg : r.get fieldName with _ | k
  · rw [hg] at hkv
    exact hidx kv hkv
  · rw [hg] at hkv
    simp only [] at hkv
    by_cases hone : relType = .oneToOne
    · rw [if_pos (by simp [hone])] at hkv
      rcases mem_assocSet _ _ _ _ hkv with h | h
      · rw [h]
        simp [ShapeOf, hone]
      · exact hidx kv h
    · rw [if_neg (by simp [hone])] at hkv
      have hshape : ShapeOf relType (TIdxVal.many [r]) := by
        simp [ShapeOf, hone]
      rcases hga : assocGet idx k with _ | tv
      · rw [hga] at hkv
        rcases mem_assocSet _ _ _ _ hkv with h | h
        · rw [h]; exact hshape
        · exact hidx kv h
      · rcases tv with r' | rs <;>
          · rw [hga] at hkv
            rcases mem_assocSet _ _ _ _ hkv with h | h
            · rw [h]
              simp [ShapeOf, hone]
            · exact hidx kv h

theorem buildIdxEntry_shape (records : List Row) (fieldName : String)
    (relType : RelationType) :
    ∀ kv ∈ buildIdxEntry records fieldName relType, ShapeOf relType kv.2 := by
  unfold buildIdxEntry
  suffices h : ∀ (idx : List (Value × TIdxVal)),
      (∀ kv ∈ idx, ShapeOf relType kv.2) →
      ∀ kv ∈ records.foldl (buildIdxStep fieldName relType) idx,
        ShapeOf relType kv.2 by
    exact h [] (by intro kv hkv; cases hkv)
  induction records with
  | nil => intro idx hidx kv hkv; exact hidx kv hkv
  | cons r rest ih =>
      intro idx hidx kv hkv
      exact ih _ (buildIdxStep_shape fieldName relType idx r hidx) kv hkv

/-- Every entry of a well-built store is keyed `tn ++ ":" ++ fn` with a
colon-free table name and values of the shape dictated by `rt tn`. -/
abbrev StoreOK (rt : String → RelationType) (store : IndexStore) : Prop :=
  ∀ p ∈ store, ∃ tn fn, p.1 = tn ++ ":" ++ fn ∧ ':' ∉ tn.data ∧
    ∀ kv ∈ p.2, ShapeOf (rt tn) kv.2

theorem wellBuilt_storeOK (rt : String → RelationType) (store : IndexStore)
    (h : WellBuilt rt store) : StoreOK rt store := by
  induction h with
  | nil => intro p hp; cases hp
  | build store tableName records fieldName hcolon _ ih =>
      intro p hp
      unfold buildIndex at hp
      rcases mem_assocSet _ _ _ _ hp with h1 | h1
      · exact ⟨tableName, fieldName, by rw [h1], hcolon, by
          rw [h1]
          exact buildIdxEntry_shape records fieldName (rt tableName)⟩
      · exact ih p h1

/-- C7 amended: on any store reachable by `build_index` calls (one
cardinality per table, colon-free table names), `lookup` under
ONE_TO_ONE only ever returns a single record or `None` — never a
multi-element list — and under the other cardinalities only a list or
`None`; it is total, so a missing key is never an error: it yields `None`
on a built index and `[]` (non-ONE_TO_ONE) when no index exists for the
table. -/
theorem lookup_cardinality (rt : String → RelationType) (store : IndexStore)
    (hwb : WellBuilt rt store) (t : String) (htc : ':' ∉ t.data) (k : Value) :
    (rt t = .oneToOne →
      lookupIndex store t k (rt t) = .nil
        ∨ ∃ r, lookupIndex store t k (rt t) = .single r) ∧
    (rt t ≠ .oneToOne →
      lookupIndex store t k (rt t) = .nil
        ∨ ∃ rs, lookupIndex store t k (rt t) = .list rs) := by
  have hok := wellBuilt_storeOK rt store hwb
  unfold lookupIndex
  rcases hf : List.find? (fun p => pyStartsWith p.1 (t ++ ":")) store
      with _ | p
  · rw [hf]
    constructor
    · intro hone
      left
      simp [hone]
    · intro hone
      right
      refine ⟨[], ?_⟩
      have hbne : (rt t != RelationType.oneToOne) = true := by
        simpa using hone
      simp [hbne]
  · rw [hf]
    simp only []
    have hpred := List.find?_some hf
    have hpm := List.mem_of_find?_eq_some hf
    obtain ⟨tn, fn, hkey, hcol, hshape⟩ := hok p hpm
    have ht : t = tn := by
      apply pyStartsWith_colon_unique tn fn t hcol htc
      rw [← hkey]
      exact hpred
    rcases hg : assocGet p.2 k with _ | v
    · exact ⟨fun _ => Or.inl rfl, fun _ => Or.inl rfl⟩
    · have hv := hshape (k, v) (assocGet_mem p.2 k v hg)
      rw [← ht] at hv
      constructor
      · intro hone
        simp only [ShapeOf] at hv
        rw [if_pos hone] at hv
        obtain ⟨r, hr⟩ := hv
        right
        refine ⟨r, ?_⟩
        rw [hr]
      · intro hone
        simp only [ShapeOf] at hv
        rw [if_neg hone] at hv
        obtain ⟨rs, hr⟩ := hv
        right
        refine ⟨rs, ?_⟩
        rw [hr]

/-- Witness for C7's amended theorem on the concrete one-table store. -/
theorem lookup_cardinality_witness :
    ((fun _ => RelationType.oneToMany) "5ABSEN" = .oneToOne →
      lookupIndex absenIdxStore "5ABSEN" (.int 2)
          ((fun _ => RelationType.oneToMany) "5ABSEN") = .nil
        ∨ ∃ r, lookupIndex absenIdxStore "5ABSEN" (.int 2)
            ((fun _ => RelationType.oneToMany) "5ABSEN") = .single r) ∧
    ((fun _ => RelationType.oneToMany) "5ABSEN" ≠ .oneToOne →
      lookupIndex absenIdxStore "5ABSEN" (.int 2)
          ((fun _ => RelationType.oneToMany) "5ABSEN") = .nil
        ∨ ∃ rs, lookupIndex absenIdxStore "5ABSEN" (.int 2)
            ((fun _ => RelationType.oneToMany) "5ABSEN") = .list rs) :=
  lookup_cardinality (fun _ => RelationType.oneToMany) absenIdxStore
    (WellBuilt.build [] "5ABSEN" [absRow] "employee_id" (by decide)
      WellBuilt.nil)
    "5ABSEN" (by decide) (.int 2)

/-! ## C9 — enrichment cycle safety -/

def tablesEnrich : Tables := [("5EMPL", [empRow]), ("5MASHI", [mashiRow])]

/-- C9 counterexample: at depth 3 the branch
5EMPL → 5MASHI → 5EMPL re-enriches table 5EMPL inside the same recursion
branch (there is no visited-set; only the depth bound stops the
recursion), refuting "no table is ever re-enriched within the same
recursion branch".  The second conjunct shows the self-loop half of the
claim does hold on this input. -/
theorem enrichment_reenters_branch :
    branchOk [] (getEntityWithRelations definedRelationships tablesEnrich 3
      empRow "5EMPL") = false
    ∧ noSelfKey (getEntityWithRelations definedRelationships tablesEnrich 3
        empRow "5EMPL") = true := ⟨rfl, rfl⟩

theorem noSelfKeyList_of_all (l : List EMatch)
    (h : ∀ m ∈ l, noSelfKeyMatch m = true) : noSelfKeyList l = true := by
  induction l with
  | nil => rfl
  | cons m rest ih =>
      simp only [noSelfKeyList, Bool.and_eq_true]
      exact ⟨h m (List.mem_cons_self _ _),
        ih (fun x hx => h x (List.mem_cons_of_mem _ hx))⟩

theorem relStep_keys (tables : Tables) (entity : Row)
    (sub : Row → String → EMatch) (rel : TableRelationship) (acc : RelMap) :
    (relStep tables entity sub rel acc).keys = acc.keys
    ∨ (relStep tables entity sub rel acc).keys
        = rel.target_table :: acc.keys := by
  unfold relStep
  rcases lookupTable tables rel.target_table with _ | targetRows
  · exact Or.inl rfl
  · rcases entity.get rel.source_field with _ | v
    · exact Or.inl rfl
    · simp only []
      rcases hms : (targetRows.filter
          (fun tr => tr.get rel.target_field == some v)).map
          (fun tr => sub tr rel.target_table) with _ | ⟨m, ms⟩
      · rw [hms]
        exact Or.inl rfl
      · rw [hms]
        exact Or.inr rfl

theorem relStep_noSelf (tables : Tables) (entity : Row)
    (sub : Row → String → EMatch)
    (hsub : ∀ tr tt, noSelfKeyMatch (sub tr tt) = true)
    (rel : TableRelationship) (acc : RelMap)
    (hacc : noSelfKeyMap acc = true) :
    noSelfKeyMap (relStep tables entity sub rel acc) = true := by
  unfold relStep
  rcases lookupTable tables rel.target_table with _ | targetRows
  · exact hacc
  · rcases entity.get rel.source_field with _ | v
    · exact hacc
    · simp only []
      rcases hms : (targetRows.filter
          (fun tr => tr.get rel.target_field == some v)).map
          (fun tr => sub tr rel.target_table) with _ | ⟨m, ms⟩
      · rw [hms]
        exact hacc
      · rw [hms]
        have hall : ∀ x ∈ m :: ms, noSelfKeyMatch x = true := by
          rw [← hms]
          intro x hx
          obtain ⟨tr, _, hxe⟩ := List.mem_map.mp hx
          rw [← hxe]
          exact hsub tr rel.target_table
        simp only [noSelfKeyMap, Bool.and_eq_true]
        refine ⟨?_, hacc⟩
        by_cases hty : (rel.relationship_type == RelationType.oneToOne
            || rel.relationship_type == RelationType.manyToOne) = true
        · simp only [hty, if_true, noSelfKeyVal]
          exact hall m (List.mem_cons_self _ _)
        · simp only [Bool.not_eq_true] at hty
          simp only [hty, Bool.false_eq_true, if_false, noSelfKeyVal]
          exact noSelfKeyList_of_all _ hall

theorem foldr_relStep_noSelf (tables : Tables) (entity : Row)
    (sub : Row → String → EMatch)
    (hsub : ∀ tr tt, noSelfKeyMatch (sub tr tt) = true) (table : String) :
    ∀ rlist : List TableRelationship,
      (∀ r ∈ rlist, r.target_table ≠ table) →
      ((rlist.foldr (relStep tables entity sub) RelMap.nil).keys.contains
          table = false
        ∧ noSelfKeyMap (rlist.foldr (relStep tables entity sub)
            RelMap.nil) = true) := by
  intro rlist
  induction rlist with
  | nil => intro _; exact ⟨rfl, rfl⟩
  | cons r rest ih =>
      intro hr
      obtain ⟨hk, hm⟩ := ih (fun x hx => hr x (List.mem_cons_of_mem _ hx))
      rw [List.foldr_cons]
      refine ⟨?_, relStep_noSelf tables entity sub hsub r _ hm⟩
      rcases relStep_keys tables entity sub r
          (rest.foldr (relStep tables entity sub) RelMap.nil) with h | h
      · rw [h]
        exact hk
      · rw [h]
        simp only [List.contains_cons, Bool.or_eq_false_iff]
        constructor
        · simp only [beq_eq_false_iff_ne, ne_eq]
          exact fun hh => hr r (List.mem_cons_self _ _) hh.symm
        · exact hk

/-- C9 amended: the enrichment recursion carries no visited-set — it is
bounded only by the depth argument, and a table can be re-enriched within
the same branch (see the counterexample) — but the self-loop half of the
claim holds: since no defined relationship has equal source and target
table, no enriched node of any enrichment tree ever carries its own table
as a relation-map key, for every table mapping, entity, table name and
depth. -/
theorem enrichment_no_self_key (rels : List TableRelationship)
    (hns : ∀ r ∈ rels, r.source_table ≠ r.target_table) :
    ∀ (d : Nat) (tables : Tables) (entity : Row) (table : String),
      noSelfKey (getEntityWithRelations rels tables d entity table)
        = true := by
  intro d
  induction d with
  | zero => intro tables e t; rfl
  | succ d ih =>
      intro tables e t
      have hsub : ∀ tr tt, noSelfKeyMatch
          ((fun tr tt =>
            if 0 < d then
              EMatch.enr (getEntityWithRelations rels tables d tr tt)
            else
              EMatch.raw tr) tr tt) = true := by
        intro tr tt
        by_cases hd : 0 < d
        · simp only [hd, if_true]
          exact ih tables tr tt
        · simp only [hd, if_false]
          rfl
      have hrlist : ∀ r ∈ getRelationshipsFrom rels t,
          r.target_table ≠ t := by
        intro r hr
        unfold getRelationshipsFrom at hr
        rw [List.mem_filter] at hr
        have hsrc : r.source_table = t := by simpa using hr.2
        have hne := hns r hr.1
        rw [hsrc] at hne
        exact fun hh => hne hh.symm
      obtain ⟨hk, hm⟩ := foldr_relStep_noSelf tables e _ hsub t
        (getRelationshipsFrom rels t) hrlist
      simp only [getEntityWithRelations, noSelfKey, Bool.and_eq_true,
        Bool.not_eq_true']
      exact ⟨hk, hm⟩

/-- Witness for C9's amended theorem: the defined relationship table has
no self-relationship, instantiated at the concrete fixture. -/
theorem enrichment_no_self_key_witness :
    noSelfKey (getEntityWithRelations definedRelationships tablesEnrich 2
      empRow "5EMPL") = true :=
  enrichment_no_self_key definedRelationships
    (by decide) 2 tablesEnrich empRow "5EMPL"

/-! ## C8 — required vs optional source failures -/

theorem foldlM_loadStep_cons (ps : List Plugin) (fs : String → FileState)
    (t : String) (rest : List String)
    (st : List (String × List Row) × List String) :
    (t :: rest).foldlM (loadStep ps fs) st
      = (match loadStep ps fs st t with
         | .ok st' => rest.foldlM (loadStep ps fs) st'
         | .error e => .error e) := by
  rw [List.foldlM_cons]
  rcases loadStep ps fs st t with e | st' <;> rfl

theorem loadStep_missing_opt (ps : List Plugin) (fs : String → FileState)
    (t : String) (st : List (String × List Row) × List String)
    (hft : fs t = .missing) (hto : isOptional ps t = true) :
    loadStep ps fs st t
      = .ok (st.1 ++ [(t, [])],
          st.2 ++ ["Optional table " ++ t ++ " not found"]) := by
  unfold loadStep
  rw [hft]
  simp [hto]

theorem loadStep_missing_req (ps : List Plugin) (fs : String → FileState)
    (t : String) (st : List (String × List Row) × List String)
    (hft : fs t = .missing) (hto : isOptional ps t = false) :
    loadStep ps fs st t
      = .error ("Required table " ++ t ++ " not found") := by
  unfold loadStep
  rw [hft]
  simp [hto]

theorem loadStep_failing_opt (ps : List Plugin) (fs : String → FileState)
    (t : String) (st : List (String × List Row) × List String)
    (hft : fs t = .failing) (hto : isOptional ps t = true) :
    loadStep ps fs st t
      = .ok (st.1 ++ [(t, [])],
          st.2 ++ ["Failed to load optional table " ++ t]) := by
  unfold loadStep
  rw [hft]
  simp [hto]

theorem loadStep_failing_req (ps : List Plugin) (fs : String → FileState)
    (t : String) (st : List (String × List Row) × List String)
    (hft : fs t = .failing) (hto : isOptional ps t = false) :
    loadStep ps fs st t = .error ("Error loading " ++ t) := by
  unfold loadStep
  rw [hft]
  simp [hto]

theorem loadStep_rows (ps : List Plugin) (fs : String → FileState)
    (t : String) (st : List (String × List Row) × List String)
    (rs : List Row) (hft : fs t = .rows rs) :
    loadStep ps fs st t = .ok (st.1 ++ [(t, rs)], st.2) := by
  unfold loadStep
  rw [hft]

/-- The table loop aborts as soon as it reaches a required table whose
source is missing or failing. -/
theorem foldlM_loadStep_error (ps : List Plugin) (fs : String → FileState) :
    ∀ (order : List String)
      (st : List (String × List Row) × List String),
      (∃ t ∈ order, isOptional ps t = false
        ∧ (fs t = .missing ∨ fs t = .failing)) →
      ∃ e, order.foldlM (loadStep ps fs) st = .error e := by
  intro order
  induction order with
  | nil =>
      rintro st ⟨t, ht, _⟩
      cases ht
  | cons t rest ih =>
      rintro st ⟨u, hu, hopt, hbad⟩
      rcases List.mem_cons.mp hu with rfl | hurest
      · rcases hbad with hb | hb
        · refine ⟨"Required table " ++ u ++ " not found", ?_⟩
          rw [foldlM_loadStep_cons, loadStep_missing_req ps fs u st hb hopt]
        · refine ⟨"Error loading " ++ u, ?_⟩
          rw [foldlM_loadStep_cons, loadStep_failing_req ps fs u st hb hopt]
      · rcases hft : fs t with _ | _ | rs
        · by_cases hto : isOptional ps t = true
          · obtain ⟨e, he⟩ := ih _ ⟨u, hurest, hopt, hbad⟩
            refine ⟨e, ?_⟩
            rw [foldlM_loadStep_cons,
              loadStep_missing_opt ps fs t st hft hto]
            exact he
          · simp only [Bool.not_eq_true] at hto
            refine ⟨"Required table " ++ t ++ " not found", ?_⟩
            rw [foldlM_loadStep_cons, loadStep_missing_req ps fs t st hft hto]
        · by_cases hto : isOptional ps t = true
          · obtain ⟨e, he⟩ := ih _ ⟨u, hurest, hopt, hbad⟩
            refine ⟨e, ?_⟩
            rw [foldlM_loadStep_cons,
              loadStep_failing_opt ps fs t st hft hto]
            exact he
          · simp only [Bool.not_eq_true] at hto
            refine ⟨"Error loading " ++ t, ?_⟩
            rw [foldlM_loadStep_cons, loadStep_failing_req ps fs t st hft hto]
        · obtain ⟨e, he⟩ := ih _ ⟨u, hurest, hopt, hbad⟩
          refine ⟨e, ?_⟩
          rw [foldlM_loadStep_cons, loadStep_rows ps fs t st rs hft]
          exact he

/-- When every required table's source is loadable, the table loop
completes, visits every table (optional failures included) and records an
empty collection for each missing or failing optional table. -/
theorem foldlM_loadStep_ok (ps : List Plugin) (fs : String → FileState) :
    ∀ (order : List String)
      (st : List (String × List Row) × List String),
      (∀ t ∈ order, isOptional ps t = false → ∃ rs, fs t = .rows rs) →
      ∃ suffix warns, order.foldlM (loadStep ps fs) st
          = .ok (st.1 ++ suffix, warns)
        ∧ suffix.map Prod.fst = order
        ∧ (∀ t ∈ order, (fs t = .missing ∨ fs t = .failing) →
            (t, ([] : List Row)) ∈ suffix) := by
  intro order
  induction order with
  | nil =>
      intro st _
      refine ⟨[], st.2, ?_, rfl, by intro t ht; cases ht⟩
      rw [List.foldlM_nil, List.append_nil]
      rfl
  | cons t rest ih =>
      intro st hreq
      have hrest : ∀ u ∈ rest, isOptional ps u = false →
          ∃ rs, fs u = .rows rs :=
        fun u hu => hreq u (List.mem_cons_of_mem _ hu)
      rcases hft : fs t with _ | _ | rs
      · have hto : isOptional ps t = true := by
          by_contra hc
          simp only [Bool.not_eq_true] at hc
          obtain ⟨rs, hrs⟩ := hreq t (List.mem_cons_self _ _) hc
          rw [hft] at hrs
          cases hrs
        obtain ⟨suffix, warns, hfold, hmap, hmem⟩ := ih
          (st.1 ++ [(t, [])],
            st.2 ++ ["Optional table " ++ t ++ " not found"]) hrest
        refine ⟨(t, []) :: suffix, warns, ?_, ?_, ?_⟩
        · rw [foldlM_loadStep_cons, loadStep_missing_opt ps fs t st hft hto]
          simp only []
          rw [hfold]
          simp
        · simp [hmap]
        · intro u hu _
          rcases List.mem_cons.mp hu with rfl | hurest
          · exact List.mem_cons_self _ _
          · exact List.mem_cons_of_mem _ (hmem u hurest (by assumption))
      · have hto : isOptional ps t = true := by
          by_contra hc
          simp only [Bool.not_eq_true] at hc
          obtain ⟨rs, hrs⟩ := hreq t (List.mem_cons_self _ _) hc
          rw [hft] at hrs
          cases hrs
        obtain ⟨suffix, warns, hfold, hmap, hmem⟩ := ih
          (st.1 ++ [(t, [])],
            st.2 ++ ["Failed to load optional table " ++ t]) hrest
        refine ⟨(t, []) :: suffix, warns, ?_, ?_, ?_⟩
        · rw [foldlM_loadStep_cons, loadStep_failing_opt ps fs t st hft hto]
          simp only []
          rw [hfold]
          simp
        · simp [hmap]
        · intro u hu _
          rcases List.mem_cons.mp hu with rfl | hurest
          · exact List.mem_cons_self _ _
          · exact List.mem_cons_of_mem _ (hmem u hurest (by assumption))
      · obtain ⟨suffix, warns, hfold, hmap, hmem⟩ := ih
          (st.1 ++ [(t, rs)], st.2) hrest
        refine ⟨(t, rs) :: suffix, warns, ?_, ?_, ?_⟩
        · rw [foldlM_loadStep_cons, loadStep_rows ps fs t st rs hft]
          simp only []
          rw [hfold]
          simp
        · simp [hmap]
        · intro u hu hbad
          rcases List.mem_cons.mp hu with rfl | hurest
          · rcases hbad with hb | hb <;> (rw [hft] at hb; cases hb)
          · exact List.mem_cons_of_mem _ (hmem u hurest hbad)

/-- C8: single-table loading (`registry.load_table`) raises for a
missing/failing required table and recovers with an empty collection plus
a recorded message for an optional one; whole-registry loading
(`load_all_tables`) aborts as soon as any required table's source is
missing or failing, whereas with all required sources loadable it
completes, processing every remaining table and giving each missing or
failing optional table an empty row collection. -/
theorem load_error_handling :
    (∀ (fs : String → FileState) (name : String) (opt : Bool),
      registryTables.find? (fun p => p.1 == name) = some (name, opt) →
      ((opt = false → (fs name = .missing ∨ fs name = .failing) →
          ∃ e, loadTable fs name = .error e)
        ∧ (opt = true → (fs name = .missing ∨ fs name = .failing) →
            ∃ w, loadTable fs name = .ok ([], w) ∧ w ≠ []))) ∧
    (∀ (ps : List Plugin) (fs : String → FileState) (order : List String),
      resolveDependencies ps = .ok order →
      ((∃ t ∈ order, isOptional ps t = false
          ∧ (fs t = .missing ∨ fs t = .failing)) →
        ∃ e, loadAllTables ps fs = .error e) ∧
      ((∀ t ∈ order, isOptional ps t = false → ∃ rs, fs t = .rows rs) →
        ∃ tbls warns, loadAllTables ps fs = .ok (tbls, warns)
          ∧ tbls.map Prod.fst = order
          ∧ (∀ t ∈ order, (fs t = .missing ∨ fs t = .failing) →
              (t, ([] : List Row)) ∈ tbls))) := by
  constructor
  · intro fs name opt hfind
    constructor
    · intro hopt hbad
      unfold loadTable
      rw [hfind]
      rcases hbad with hb | hb <;>
        · rw [hb]
          simp [hopt]
    · intro hopt hbad
      unfold loadTable
      rw [hfind]
      rcases hbad with hb | hb <;>
        · rw [hb]
          simp only [hopt, if_true]
          exact ⟨_, rfl, by simp⟩
  · intro ps fs order hresolve
    constructor
    · intro hbad
      obtain ⟨e, he⟩ := foldlM_loadStep_error ps fs order ([], []) hbad
      refine ⟨e, ?_⟩
      unfold loadAllTables
      rw [hresolve]
      exact he
    · intro hreq
      obtain ⟨suffix, warns, hfold, hmap, hmem⟩ :=
        foldlM_loadStep_ok ps fs order ([], []) hreq
      refine ⟨suffix, warns, ?_, hmap, hmem⟩
      unfold loadAllTables
      rw [hresolve]
      simpa using hfold

/-- Witness for C8: `5EMPL` is required (missing source → error) and
`5BUILD` is optional (missing source → empty rows plus a message); a
two-plugin registry whose optional table is missing still loads the other
table and records the empty collection. -/
theorem load_error_handling_witness :
    (∃ e, loadTable (fun _ => .missing) "5EMPL" = .error e) ∧
    (∃ w, loadTable (fun _ => .missing) "5BUILD" = .ok ([], w) ∧ w ≠ []) ∧
    (∃ tbls warns,
      loadAllTables [⟨"A", [], false⟩, ⟨"B", ["A"], true⟩]
          (fun t => if t = "A" then .rows [empRow] else .missing)
        = .ok (tbls, warns)
      ∧ tbls.map Prod.fst = ["A", "B"]
      ∧ (("B", ([] : List Row)) ∈ tbls)) := by
  refine ⟨?_, ?_, ?_⟩
  · exact (load_error_handling.1 (fun _ => .missing) "5EMPL" false rfl).1
      rfl (Or.inl rfl)
  · exact (load_error_handling.1 (fun _ => .missing) "5BUILD" true rfl).2
      rfl (Or.inl rfl)
  · obtain ⟨tbls, warns, hok, hmap, hmem⟩ :=
      (load_error_handling.2 [⟨"A", [], false⟩, ⟨"B", ["A"], true⟩]
        (fun t => if t = "A" then .rows [empRow] else .missing)
        ["A", "B"] rfl).2
      (by
        intro t ht hopt
        rcases List.mem_cons.mp ht with rfl | ht2
        · exact ⟨[empRow], rfl⟩
        · rcases List.mem_cons.mp ht2 with rfl | ht3
          · cases hopt
          · cases ht3)
    exact ⟨tbls, warns, hok, hmap,
      hmem "B" (List.mem_cons_of_mem _ (List.mem_cons_self _ _)) (Or.inl rfl)⟩

/-! ## C2: Kahn's algorithm in `_resolve_dependencies` -/

theorem depsOf_nodup (ps : List Plugin) (hD : ∀ p ∈ ps, p.deps.Nodup)
    (o : String) : (depsOf ps o).Nodup := by
  unfold depsOf
  rcases hfind : ps.find? (fun p => p.name == o) with _ | p
  · rw [hfind]
    exact List.nodup_nil
  · rw [hfind]
    exact hD p (List.mem_of_find?_eq_some hfind)

theorem indegI_eq_zero_iff (ps : List Plugin) (o : String) (L : List String)
    (hLn : L.Nodup) (hLr : L ⊆ registeredNames ps)
    (hdn : (depsOf ps o).Nodup) :
    indegI ps L o = 0 ↔
      ∀ d ∈ depsOf ps o, d ∈ registeredNames ps → d ∈ L := by
  have hBA : L.filter (fun x => (depsOf ps o).contains x)
      ⊆ (depsOf ps o).filter (fun d => (registeredNames ps).contains d) := by
    intro x hx
    rcases List.mem_filter.mp hx with ⟨hxL, hxd⟩
    exact List.mem_filter.mpr ⟨by simpa using hxd, by simpa using hLr hxL⟩
  have hBn : (L.filter (fun x => (depsOf ps o).contains x)).Nodup :=
    hLn.filter _
  have hAn : ((depsOf ps o).filter
      (fun d => (registeredNames ps).contains d)).Nodup := hdn.filter _
  have hle : (L.filter (fun x => (depsOf ps o).contains x)).length
      ≤ ((depsOf ps o).filter
          (fun d => (registeredNames ps).contains d)).length :=
    (List.subperm_of_subset hBn hBA).length_le
  unfold indegI
  rw [sub_eq_zero]
  constructor
  · intro h0
    have hlen : ((depsOf ps o).filter
        (fun d => (registeredNames ps).contains d)).length
        = (L.filter (fun x => (depsOf ps o).contains x)).length := by
      exact_mod_cast h0
    have hperm := (List.subperm_of_subset hBn hBA).perm_of_length_le
      (le_of_eq hlen)
    intro d hd hdr
    have hdA : d ∈ (depsOf ps o).filter
        (fun d => (registeredNames ps).contains d) :=
      List.mem_filter.mpr ⟨hd, by simpa using hdr⟩
    exact (List.mem_filter.mp (hperm.mem_iff.mpr hdA)).1
  · intro h
    have hAB : (depsOf ps o).filter
        (fun d => (registeredNames ps).contains d)
        ⊆ L.filter (fun x => (depsOf ps o).contains x) := by
      intro a ha
      rcases List.mem_filter.mp ha with ⟨had, har⟩
      exact List.mem_filter.mpr
        ⟨h a had (by simpa using har), by simpa using had⟩
    have hle2 := (List.subperm_of_subset hAn hAB).length_le
    exact_mod_cast le_antisymm hle2 hle

theorem DepsRespect_mem (ps : List Plugin) :
    ∀ (l seen : List String), DepsRespect ps seen l →
      ∀ o ∈ l, ∀ d ∈ depsOf ps o, d ∈ registeredNames ps →
        d ∈ seen ++ l := by
  intro l
  induction l with
  | nil =>
      intro seen _ o ho
      cases ho
  | cons a rest ih =>
      intro seen h o ho d hd hdr
      obtain ⟨h1, h2⟩ := h
      rcases List.mem_cons.mp ho with rfl | ho2
      · exact List.mem_append.mpr (Or.inl (h1 d hd hdr))
      · have := ih (seen ++ [a]) h2 o ho2 d hd hdr
        simpa [List.append_assoc] using this

theorem DepsRespect_snoc (ps : List Plugin) :
    ∀ (l seen : List String), DepsRespect ps seen l →
      ∀ t, (∀ d ∈ depsOf ps t, d ∈ registeredNames ps → d ∈ seen ++ l) →
      DepsRespect ps seen (l ++ [t]) := by
  intro l
  induction l with
  | nil =>
      intro seen _ t ht
      exact ⟨fun d hd hdr => by simpa using ht d hd hdr, trivial⟩
  | cons a rest ih =>
      intro seen h t ht
      obtain ⟨h1, h2⟩ := h
      exact ⟨h1, ih (seen ++ [a]) h2 t
        (fun d hd hdr => by simpa [List.append_assoc] using ht d hd hdr)⟩

theorem KInv_popped (ps : List Plugin) (t : String)
    (queue result : List String) (h : KInv ps (t :: queue) result) :
    (result ++ [t]).Nodup ∧ result ++ [t] ⊆ registeredNames ps := by
  obtain ⟨hrn, hqn, hdisj, hrs, hqs, _, _, _⟩ := h
  have htreg : t ∈ registeredNames ps := hqs (List.mem_cons_self _ _)
  have htnr : t ∉ result := fun hmem => hdisj t hmem (List.mem_cons_self _ _)
  constructor
  · rw [List.nodup_append]
    exact ⟨hrn, List.nodup_singleton t,
      fun x hx hxt => htnr ((List.mem_singleton.mp hxt) ▸ hx)⟩
  · intro x hx
    rcases List.mem_append.mp hx with hx | hx
    · exact hrs hx
    · rw [List.mem_singleton.mp hx]
      exact htreg

theorem kahnLoop_step (ps : List Plugin)
    (hN : (registeredNames ps).Nodup)
    (hD : ∀ p ∈ ps, p.deps.Nodup)
    (t : String) (queue result : List String)
    (h : KInv ps (t :: queue) result) :
    KInv ps
      (queue ++ (registeredNames ps).filter
        (fun o => (depsOf ps o).contains t
          && indegI ps (result ++ [t]) o == 0))
      (result ++ [t]) := by
  obtain ⟨hpn, hps⟩ := KInv_popped ps t queue result h
  obtain ⟨hrn, hqn, hdisj, hrs, hqs, hqdeps, hresp, hcomp⟩ := h
  have htreg : t ∈ registeredNames ps := hqs (List.mem_cons_self _ _)
  have htnr : t ∉ result := fun hmem => hdisj t hmem (List.mem_cons_self _ _)
  have hqn2 : queue.Nodup := (List.nodup_cons.mp hqn).2
  have htq : t ∉ queue := (List.nodup_cons.mp hqn).1
  have hnewly : ∀ o, o ∈ (registeredNames ps).filter
      (fun o => (depsOf ps o).contains t
        && indegI ps (result ++ [t]) o == 0) →
      o ∈ registeredNames ps ∧ t ∈ depsOf ps o
        ∧ (∀ d ∈ depsOf ps o, d ∈ registeredNames ps →
            d ∈ result ++ [t]) := by
    intro o ho
    rcases List.mem_filter.mp ho with ⟨hor, hcond⟩
    simp only [Bool.and_eq_true] at hcond
    obtain ⟨hct, hindeg⟩ := hcond
    refine ⟨hor, by simpa using hct, ?_⟩
    exact (indegI_eq_zero_iff ps o (result ++ [t]) hpn hps
      (depsOf_nodup ps hD o)).mp (beq_iff_eq.mp hindeg)
  have hresmem : ∀ o ∈ result, ∀ d ∈ depsOf ps o,
      d ∈ registeredNames ps → d ∈ result := by
    intro o ho d hd hdr
    have := DepsRespect_mem ps result [] hresp o ho d hd hdr
    simpa using this
  refine ⟨hpn, ?_, ?_, hps, ?_, ?_, ?_, ?_⟩
  · rw [List.nodup_append]
    refine ⟨hqn2, hN.filter _, ?_⟩
    intro x hx hx2
    have := hqdeps x (List.mem_cons_of_mem _ hx) t (hnewly x hx2).2.1 htreg
    exact htnr this
  · intro x hx hx2
    rcases List.mem_append.mp hx with hxr | hxt
    · rcases List.mem_append.mp hx2 with hq | hnew
      · exact hdisj x hxr (List.mem_cons_of_mem _ hq)
      · exact htnr (hresmem x hxr t (hnewly x hnew).2.1 htreg)
    · rw [List.mem_singleton.mp hxt] at hx2
      rcases List.mem_append.mp hx2 with hq | hnew
      · exact htq hq
      · exact htnr
          (hqdeps t (List.mem_cons_self _ _) t (hnewly t hnew).2.1 htreg)
  · intro x hx
    rcases List.mem_append.mp hx with hq | hnew
    · exact hqs (List.mem_cons_of_mem _ hq)
    · exact (hnewly x hnew).1
  · intro o ho d hd hdr
    rcases List.mem_append.mp ho with hq | hnew
    · exact List.mem_append.mpr
        (Or.inl (hqdeps o (List.mem_cons_of_mem _ hq) d hd hdr))
    · exact (hnewly o hnew).2.2 d hd hdr
  · exact DepsRespect_snoc ps result [] hresp t
      (fun d hd hdr => hqdeps t (List.mem_cons_self _ _) d hd hdr)
  · intro o hor hdeps
    by_cases hall : ∀ d ∈ depsOf ps o, d ∈ registeredNames ps → d ∈ result
    · rcases hcomp o hor hall with hres2 | hque
      · exact Or.inl (List.mem_append.mpr (Or.inl hres2))
      · rcases List.mem_cons.mp hque with rfl | hq
        · exact Or.inl (List.mem_append.mpr
            (Or.inr (List.mem_singleton.mpr rfl)))
        · exact Or.inr (List.mem_append.mpr (Or.inl hq))
    · push_neg at hall
      obtain ⟨d, hd, hdr, hdnr⟩ := hall
      have hdt : d = t := by
        rcases List.mem_append.mp (hdeps d hd hdr) with hm | hm
        · exact absurd hm hdnr
        · exact List.mem_singleton.mp hm
      refine Or.inr (List.mem_append.mpr (Or.inr ?_))
      refine List.mem_filter.mpr ⟨hor, ?_⟩
      simp only [Bool.and_eq_true]
      constructor
      · simpa using hdt ▸ hd
      · exact beq_iff_eq.mpr
          ((indegI_eq_zero_iff ps o (result ++ [t]) hpn hps
            (depsOf_nodup ps hD o)).mpr hdeps)

theorem kahnLoop_exit (ps : List Plugin)
    (hN : (registeredNames ps).Nodup)
    (hD : ∀ p ∈ ps, p.deps.Nodup) :
    ∀ (fuel : Nat) (queue result : List String), KInv ps queue result →
      (registeredNames ps).length + 1 ≤ fuel + result.length →
      (kahnLoop ps fuel queue result).Nodup
      ∧ kahnLoop ps fuel queue result ⊆ registeredNames ps
      ∧ DepsRespect ps [] (kahnLoop ps fuel queue result)
      ∧ (∀ o ∈ registeredNames ps,
          (∀ d ∈ depsOf ps o, d ∈ registeredNames ps →
            d ∈ kahnLoop ps fuel queue result) →
          o ∈ kahnLoop ps fuel queue result) := by
  intro fuel
  induction fuel with
  | zero =>
      intro queue result hinv hfuel
      exfalso
      obtain ⟨hrn, _, _, hrs, _, _, _, _⟩ := hinv
      have := (List.subperm_of_subset hrn hrs).length_le
      omega
  | succ fuel ih =>
      intro queue result hinv hfuel
      cases queue with
      | nil =>
          obtain ⟨hrn, _, _, hrs, _, _, hresp, hcomp⟩ := hinv
          have hred : kahnLoop ps (fuel + 1) [] result = result := rfl
          rw [hred]
          refine ⟨hrn, hrs, hresp, ?_⟩
          intro o hor hdeps
          rcases hcomp o hor hdeps with hres2 | hque
          · exact hres2
          · cases hque
      | cons t q =>
          have hred : kahnLoop ps (fuel + 1) (t :: q) result
              = kahnLoop ps fuel
                  (q ++ (registeredNames ps).filter
                    (fun o => (depsOf ps o).contains t
                      && indegI ps (result ++ [t]) o == 0))
                  (result ++ [t]) := rfl
          rw [hred]
          refine ih _ _ (kahnLoop_step ps hN hD t q result hinv) ?_
          rw [List.length_append]
          simp only [List.length_singleton]
          omega

theorem kahnLoop_cycle_avoid (ps : List Plugin)
    (hN : (registeredNames ps).Nodup)
    (hD : ∀ p ∈ ps, p.deps.Nodup)
    (c : List String)
    (hsucc : ∀ x ∈ c, ∃ d ∈ depsOf ps x,
      d ∈ registeredNames ps ∧ d ∈ c) :
    ∀ (fuel : Nat) (queue result : List String), KInv ps queue result →
      (∀ x ∈ c, x ∉ result ∧ x ∉ queue) →
      ∀ x ∈ c, x ∉ kahnLoop ps fuel queue result := by
  intro fuel
  induction fuel with
  | zero =>
      intro queue result _ hdisj x hx
      exact (hdisj x hx).1
  | succ fuel ih =>
      intro queue result hinv hdisj
      cases queue with
      | nil =>
          intro x hx
          exact (hdisj x hx).1
      | cons t q =>
          have hred : kahnLoop ps (fuel + 1) (t :: q) result
              = kahnLoop ps fuel
                  (q ++ (registeredNames ps).filter
                    (fun o => (depsOf ps o).contains t
                      && indegI ps (result ++ [t]) o == 0))
                  (result ++ [t]) := rfl
          rw [hred]
          refine ih _ _ (kahnLoop_step ps hN hD t q result hinv) ?_
          obtain ⟨hpn, hps⟩ := KInv_popped ps t q result hinv
          intro x hx
          constructor
          · intro hmem
            rcases List.mem_append.mp hmem with hm | hm
            · exact (hdisj x hx).1 hm
            · refine (hdisj x hx).2 ?_
              rw [List.mem_singleton.mp hm]
              exact List.mem_cons_self _ _
          · intro hmem
            rcases List.mem_append.mp hmem with hm | hm
            · exact (hdisj x hx).2 (List.mem_cons_of_mem _ hm)
            · rcases List.mem_filter.mp hm with ⟨hxr, hcond⟩
              simp only [Bool.and_eq_true] at hcond
              obtain ⟨hct, hindeg⟩ := hcond
              have hall := (indegI_eq_zero_iff ps x (result ++ [t]) hpn hps
                (depsOf_nodup ps hD x)).mp (beq_iff_eq.mp hindeg)
              obtain ⟨d, hd, hdr, hdc⟩ := hsucc x hx
              rcases List.mem_append.mp (hall d hd hdr) with hm2 | hm2
              · exact (hdisj d hdc).1 hm2
              · have htc : t ∈ c := by
                  rw [← List.mem_singleton.mp hm2]
                  exact hdc
                exact (hdisj t htc).2 (List.mem_cons_self _ _)

theorem cycle_mem_succ (ps : List Plugin) (cyc : List String)
    (h : IsDepCycle ps cyc) :
    ∀ x ∈ cyc, ∃ d ∈ depsOf ps x, d ∈ registeredNames ps ∧ d ∈ cyc := by
  obtain ⟨hne, hreg, hlink⟩ := h
  intro x hx
  obtain ⟨i, hi, hxi⟩ := List.mem_iff_getElem.mp hx
  have hn : 0 < cyc.length := List.length_pos.mpr hne
  have hmod : (i + 1) % cyc.length < cyc.length := Nat.mod_lt _ hn
  have hgi : cyc.getD i "" = x := by
    simp [List.getD_eq_getElem?_getD, List.getElem?_eq_getElem hi, hxi]
  have hgd : cyc.getD ((i + 1) % cyc.length) ""
      = cyc[(i + 1) % cyc.length] := by
    simp [List.getD_eq_getElem?_getD, List.getElem?_eq_getElem hmod]
  refine ⟨cyc.getD ((i + 1) % cyc.length) "", ?_, ?_, ?_⟩
  · have := hlink i hi
    rwa [hgi] at this
  · refine hreg _ ?_
    rw [hgd]
    exact List.getElem_mem hmod
  · rw [hgd]
    exact List.getElem_mem hmod

/-- C2: `PluginRegistry._resolve_dependencies` implements Kahn's
algorithm correctly on a duplicate-free registry with set-valued
dependency lists: when the registered dependency graph is acyclic it
returns an ordering of exactly the registered tables in which every
registered dependency of a table appears strictly before that table, and
when the graph contains any dependency cycle it fails with a `ValueError`
naming the unprocessed tables, a list that contains every member of the
cycle. -/
theorem resolve_dependencies_correct (ps : List Plugin)
    (hN : (registeredNames ps).Nodup)
    (hD : ∀ p ∈ ps, p.deps.Nodup) :
    (AcyclicDeps ps →
      ∃ order, resolveDependencies ps = .ok order
        ∧ order.Nodup
        ∧ (∀ t, t ∈ order ↔ t ∈ registeredNames ps)
        ∧ DepsRespect ps [] order)
    ∧ (∀ c, IsDepCycle ps c →
        ∃ rem, resolveDependencies ps = .error rem
          ∧ ∀ x ∈ c, x ∈ rem) := by
  classical
  have hinv0 : KInv ps
      ((registeredNames ps).filter (fun t => indegI ps [] t == 0)) [] := by
    unfold KInv
    refine ⟨List.nodup_nil, hN.filter _, fun x hx => absurd hx (by simp),
      fun x hx => absurd hx (by simp),
      fun x hx => (List.mem_filter.mp hx).1, ?_, trivial, ?_⟩
    · intro o ho d hd hdr
      rcases List.mem_filter.mp ho with ⟨_, hcond⟩
      exact (indegI_eq_zero_iff ps o [] List.nodup_nil
        (fun x hx => absurd hx (by simp)) (depsOf_nodup ps hD o)).mp
        (beq_iff_eq.mp hcond) d hd hdr
    · intro o hor hdeps
      right
      exact List.mem_filter.mpr ⟨hor, beq_iff_eq.mpr
        ((indegI_eq_zero_iff ps o [] List.nodup_nil
          (fun x hx => absurd hx (by simp))
          (depsOf_nodup ps hD o)).mpr hdeps)⟩
  set R := kahnLoop ps (ps.length + 1)
    ((registeredNames ps).filter (fun t => indegI ps [] t == 0)) []
    with hRdef
  have hfuel0 : (registeredNames ps).length + 1
      ≤ (ps.length + 1) + ([] : List String).length := by
    simp [registeredNames]
  have hexit := kahnLoop_exit ps hN hD (ps.length + 1)
    ((registeredNames ps).filter (fun t => indegI ps [] t == 0)) []
    hinv0 hfuel0
  rw [← hRdef] at hexit
  obtain ⟨hRn, hRs, hRresp, hRcomp⟩ := hexit
  have hres : resolveDependencies ps
      = if R.length != (registeredNames ps).length then
          .error ((registeredNames ps).filter (fun t => !R.contains t))
        else .ok R := by
    rw [hRdef]
    rfl
  constructor
  · intro hacyc
    have hall : ∀ x ∈ registeredNames ps, x ∈ R := by
      by_contra hcon
      push_neg at hcon
      obtain ⟨o, hor, honr⟩ := hcon
      have hsucc : ∀ x, x ∈ registeredNames ps → x ∉ R →
          ∃ d, d ∈ depsOf ps x ∧ d ∈ registeredNames ps ∧ d ∉ R := by
        intro x hxr hxnr
        by_contra hno
        push_neg at hno
        exact hxnr (hRcomp x hxr (fun d hd hdr => hno d hd hdr))
      choose! f hf1 hf2 hf3 using hsucc
      have hiter : ∀ n, f^[n] o ∈ registeredNames ps ∧ f^[n] o ∉ R := by
        intro n
        induction n with
        | zero => exact ⟨hor, honr⟩
        | succ n ihn =>
            rw [Function.iterate_succ_apply']
            exact ⟨hf2 _ ihn.1 ihn.2, hf3 _ ihn.1 ihn.2⟩
      have hlink : ∀ n, f^[n + 1] o ∈ depsOf ps (f^[n] o) := by
        intro n
        rw [Function.iterate_succ_apply']
        exact hf1 _ (hiter n).1 (hiter n).2
      have hcycle : ∀ i j : Nat, i < j → f^[i] o = f^[j] o → False := by
        intro i j hlt hfeq
        apply hacyc
        refine ⟨(List.range (j - i)).map (fun k => f^[i + k] o), ?_, ?_, ?_⟩
        · apply List.ne_nil_of_length_pos
          have : 0 < j - i := Nat.sub_pos_of_lt hlt
          simpa using this
        · intro x hx
          rcases List.mem_map.mp hx with ⟨k, _, rfl⟩
          exact (hiter (i + k)).1
        · intro m hm
          have hlen : ((List.range (j - i)).map
              (fun k => f^[i + k] o)).length = j - i := by simp
          rw [hlen] at hm ⊢
          have hget : ∀ m', m' < j - i →
              ((List.range (j - i)).map
                (fun k => f^[i + k] o)).getD m' "" = f^[i + m'] o := by
            intro m' hm'
            simp [List.getD_eq_getElem?_getD, List.getElem?_map,
              List.getElem?_range, hm']
          by_cases hmt : m + 1 < j - i
          · rw [hget m hm, Nat.mod_eq_of_lt hmt, hget (m + 1) hmt]
            have harith : i + (m + 1) = (i + m) + 1 := by omega
            rw [harith]
            exact hlink (i + m)
          · have hmeq : m + 1 = j - i := by omega
            rw [hget m hm, hmeq, Nat.mod_self, hget 0 (by omega)]
            have h2 := hlink (i + m)
            have h3 : i + m + 1 = j := by omega
            rw [h3] at h2
            rw [Nat.add_zero, hfeq]
            exact h2
      have hmaps : ∀ n ∈ Finset.range
          (((registeredNames ps).toFinset.filter
            (fun x => x ∉ R)).card + 1),
          f^[n] o ∈ (registeredNames ps).toFinset.filter
            (fun x => x ∉ R) := by
        intro n _
        exact Finset.mem_filter.mpr
          ⟨List.mem_toFinset.mpr (hiter n).1, (hiter n).2⟩
      have hcard : ((registeredNames ps).toFinset.filter
          (fun x => x ∉ R)).card
          < (Finset.range (((registeredNames ps).toFinset.filter
              (fun x => x ∉ R)).card + 1)).card := by
        rw [Finset.card_range]
        exact Nat.lt_succ_self _
      obtain ⟨i, _, j, _, hij, hfeq⟩ :=
        Finset.exists_ne_map_eq_of_card_lt_of_maps_to hcard hmaps
      rcases Nat.lt_or_ge i j with hlt | hge
      · exact hcycle i j hlt hfeq
      · exact hcycle j i (lt_of_le_of_ne hge (fun hswap => hij hswap.symm))
          hfeq.symm
    have hlen : R.length = (registeredNames ps).length :=
      le_antisymm (List.subperm_of_subset hRn hRs).length_le
        (List.subperm_of_subset hN (fun x hx => hall x hx)).length_le
    refine ⟨R, ?_, hRn, ?_, hRresp⟩
    · rw [hres]
      simp [hlen]
    · intro x
      exact ⟨fun hx => hRs hx, fun hx => hall x hx⟩
  · intro c hc
    have hsucc := cycle_mem_succ ps c hc
    have hdisj0 : ∀ x ∈ c, x ∉ ([] : List String)
        ∧ x ∉ (registeredNames ps).filter
            (fun t => indegI ps [] t == 0) := by
      intro x hx
      refine ⟨by simp, ?_⟩
      intro hmem
      rcases List.mem_filter.mp hmem with ⟨_, hcond⟩
      have h0 := (indegI_eq_zero_iff ps x [] List.nodup_nil
        (fun y hy => absurd hy (by simp))
        (depsOf_nodup ps hD x)).mp (beq_iff_eq.mp hcond)
      obtain ⟨d, hd, hdr, _⟩ := hsucc x hx
      cases h0 d hd hdr
    have havoid := kahnLoop_cycle_avoid ps hN hD c hsucc (ps.length + 1)
      ((registeredNames ps).filter (fun t => indegI ps [] t == 0)) []
      hinv0 hdisj0
    rw [← hRdef] at havoid
    obtain ⟨x₀, hx₀⟩ := List.exists_mem_of_ne_nil c hc.1
    have hx₀r : x₀ ∈ registeredNames ps := hc.2.1 x₀ hx₀
    have hx₀nr : x₀ ∉ R := havoid x₀ hx₀
    have hlt : R.length < (registeredNames ps).length := by
      rcases Nat.lt_or_ge R.length (registeredNames ps).length with h | h
      · exact h
      · exfalso
        have hperm := (List.subperm_of_subset hRn hRs).perm_of_length_le h
        exact hx₀nr (hperm.mem_iff.mpr hx₀r)
    have hb : (R.length != (registeredNames ps).length) = true := by
      simp [bne_iff_ne]
      omega
    refine ⟨(registeredNames ps).filter (fun t => !R.contains t), ?_, ?_⟩
    · rw [hres]
      simp [hb]
    · intro x hx
      refine List.mem_filter.mpr ⟨hc.2.1 x hx, ?_⟩
      have hxnr : x ∉ R := havoid x hx
      simp [hxnr]

/-- Witness for C2 at a two-table registry whose dependency graph is the
cycle A -> B -> A: resolution fails and the error names both tables. -/
theorem resolve_dependencies_correct_witness :
    (registeredNames [⟨"A", ["B"], false⟩, ⟨"B", ["A"], false⟩]).Nodup
    ∧ (∀ p ∈ ([⟨"A", ["B"], false⟩, ⟨"B", ["A"], false⟩] : List Plugin),
        p.deps.Nodup)
    ∧ IsDepCycle [⟨"A", ["B"], false⟩, ⟨"B", ["A"], false⟩] ["A", "B"]
    ∧ ∃ rem,
        resolveDependencies [⟨"A", ["B"], false⟩, ⟨"B", ["A"], false⟩]
          = .error rem ∧ ∀ x ∈ ["A", "B"], x ∈ rem :=
  ⟨by decide, by decide, by decide,
    (resolve_dependencies_correct
      [⟨"A", ["B"], false⟩, ⟨"B", ["A"], false⟩]
      (by decide) (by decide)).2 ["A", "B"] (by decide)⟩

end SP5
